import Mathlib

set_option maxHeartbeats 1000000
set_option maxRecDepth 4096

/-!
Shallow embedding of the BusTub buffer-pool core: the LRU-K replacer
(lru_k_replacer.cpp), the extendible hash table
(extendible_hash_table.cpp) and the buffer pool manager
(buffer_pool_manager_instance.cpp), together with theorems settling the
specification claims about them.

Modelling conventions:
- C++ size_t values are Nat; std::numeric_limits of size_t max is the
  explicit constant USIZE_MAX.
- std::unordered_map of the replacer becomes an association list that is
  iterated in list order; std::list becomes List.
- Functions guarded by BUSTUB_ASSERT return Option; none models the
  assertion firing (process abort).
- Mutex acquisition is dropped: every operation is modelled as the
  atomic state transformation performed under the lock.
-/

/-- Maximum value of the C++ type size_t; the replacer uses it as the
infinite backward k-distance. -/
def USIZE_MAX : Nat := 2 ^ 64 - 1

/-- Per-frame metadata of the LRU-K replacer (struct FrameInfo in
lru_k_replacer.h): access timestamps, oldest at the front, and the
evictable flag whose default-constructed value is false. -/
structure FrameInfo where
  access_timestamps : List Nat
  evictable : Bool
deriving Repr, DecidableEq

/-- The value produced by the default constructor FrameInfo(). -/
def FrameInfo.default0 : FrameInfo := ⟨[], false⟩

/-- State of LRUKReplacer (lru_k_replacer.h).  frame_map is the
association list modelling frame_map_; introduced is a history
variable recording every frame id ever passed to RecordAccess (it has
no counterpart in the C++ state and influences nothing). -/
structure LRUKReplacer where
  frame_map : List (Nat × FrameInfo)
  current_timestamp : Nat
  curr_size : Nat
  replacer_size : Nat
  k : Nat
  introduced : List Nat
deriving Repr, DecidableEq

/-- Lookup in the association list modelling unordered_map::find. -/
def lookupFrame (m : List (Nat × FrameInfo)) (fid : Nat) : Option FrameInfo :=
  match m with
  | [] => none
  | p :: rest => if p.1 = fid then some p.2 else lookupFrame rest fid

/-- In-place update (or append, mirroring operator[] creating a fresh
entry) in the association list. -/
def updateFrame (m : List (Nat × FrameInfo)) (fid : Nat) (fi : FrameInfo) :
    List (Nat × FrameInfo) :=
  match m with
  | [] => [(fid, fi)]
  | p :: rest => if p.1 = fid then (fid, fi) :: rest else p :: updateFrame rest fid fi

/-- Erasure of a key, modelling unordered_map::erase. -/
def eraseFrame (m : List (Nat × FrameInfo)) (fid : Nat) : List (Nat × FrameInfo) :=
  match m with
  | [] => []
  | p :: rest => if p.1 = fid then rest else p :: eraseFrame rest fid

/-- LRUKReplacer::RecordAccess.  none models the BUSTUB_ASSERT on an
out-of-range frame id firing. -/
def LRUKReplacer.RecordAccess (r : LRUKReplacer) (fid : Nat) : Option LRUKReplacer :=
  if fid < r.replacer_size then
    let fi := (lookupFrame r.frame_map fid).getD FrameInfo.default0
    let ts1 := fi.access_timestamps ++ [r.current_timestamp]
    let ts2 := if ts1.length > r.k then ts1.tail else ts1
    some { r with
      frame_map := updateFrame r.frame_map fid { fi with access_timestamps := ts2 },
      current_timestamp := r.current_timestamp + 1,
      introduced := r.introduced ++ [fid] }
  else none

/-- LRUKReplacer::SetEvictable. -/
def LRUKReplacer.SetEvictable (r : LRUKReplacer) (fid : Nat) (flag : Bool) :
    Option LRUKReplacer :=
  if fid < r.replacer_size then
    match lookupFrame r.frame_map fid with
    | none => some r
    | some fi =>
      if fi.evictable = flag then some r
      else
        some { r with
          curr_size := if flag then r.curr_size + 1 else r.curr_size - 1,
          frame_map := updateFrame r.frame_map fid { fi with evictable := flag } }
  else none

/-- LRUKReplacer::Remove.  none models either assertion firing (range
check, or removal of a non-evictable frame). -/
def LRUKReplacer.Remove (r : LRUKReplacer) (fid : Nat) : Option LRUKReplacer :=
  if fid < r.replacer_size then
    match lookupFrame r.frame_map fid with
    | none => some r
    | some fi =>
      if fi.evictable then
        some { r with
          curr_size := r.curr_size - 1,
          frame_map := eraseFrame r.frame_map fid }
      else none
  else none

/-- LRUKReplacer::Size. -/
def LRUKReplacer.Size (r : LRUKReplacer) : Nat := r.curr_size

/-- ts_list.front() of the C++ code (lists are nonempty in every
reachable state; 0 is an arbitrary default). -/
def frontTs (fi : FrameInfo) : Nat := fi.access_timestamps.headD 0

/-- Loop state of LRUKReplacer::Evict: victim_fid (INVALID_FRAME_ID is
modelled by none), max_backward_dist and earliest_first_ts. -/
structure EvictAcc where
  victim : Option Nat
  max_backward_dist : Nat
  earliest_first_ts : Nat
deriving Repr, DecidableEq

/-- One iteration of the scan in LRUKReplacer::Evict. -/
def evictStep (r : LRUKReplacer) (acc : EvictAcc) (p : Nat × FrameInfo) : EvictAcc :=
  if p.2.evictable = false then acc
  else if p.2.access_timestamps.length < r.k then
    let first_ts := frontTs p.2
    if USIZE_MAX > acc.max_backward_dist then
      ⟨some p.1, USIZE_MAX, first_ts⟩
    else if USIZE_MAX = acc.max_backward_dist ∧ first_ts < acc.earliest_first_ts then
      ⟨some p.1, acc.max_backward_dist, first_ts⟩
    else acc
  else
    let backward_dist := r.current_timestamp - frontTs p.2
    if backward_dist > acc.max_backward_dist then
      ⟨some p.1, backward_dist, acc.earliest_first_ts⟩
    else acc

/-- LRUKReplacer::Evict.  On success returns the victim frame id and
the post state.  none covers both the curr_size == 0 early return and
the (unreachable in well-formed states) assertion that no victim was
found. -/
def LRUKReplacer.Evict (r : LRUKReplacer) : Option (Nat × LRUKReplacer) :=
  if r.curr_size = 0 then none
  else
    match (r.frame_map.foldl (evictStep r) ⟨none, 0, USIZE_MAX⟩).victim with
    | none => none
    | some v =>
      some (v, { r with
        frame_map := eraseFrame r.frame_map v,
        curr_size := r.curr_size - 1 })

/-- Looking up the key just written by updateFrame yields the new value. -/
theorem lookupFrame_updateFrame_self (m : List (Nat × FrameInfo)) (fid : Nat)
    (fi : FrameInfo) : lookupFrame (updateFrame m fid fi) fid = some fi := by
  induction m with
  | nil => simp [updateFrame, lookupFrame]
  | cons p rest ih =>
    by_cases h : p.1 = fid
    · simp [updateFrame, lookupFrame, h]
    · simp [updateFrame, lookupFrame, h, ih]

/-- C2: for an in-range frame id, record_access appends the current
global timestamp to the frame's sequence, drops the oldest entry when
the length then exceeds k, increments the global timestamp, and a
freshly created record is marked non-evictable. -/
theorem recordAccess_spec (r : LRUKReplacer) (fid : Nat) (h : fid < r.replacer_size)
    (hk1 : 1 ≤ r.k) :
    ∃ r', r.RecordAccess fid = some r' ∧
      r'.current_timestamp = r.current_timestamp + 1 ∧
      (∀ fi, lookupFrame r.frame_map fid = some fi →
        lookupFrame r'.frame_map fid = some
          { fi with access_timestamps :=
              if (fi.access_timestamps ++ [r.current_timestamp]).length > r.k then
                (fi.access_timestamps ++ [r.current_timestamp]).tail
              else fi.access_timestamps ++ [r.current_timestamp] }) ∧
      (lookupFrame r.frame_map fid = none →
        lookupFrame r'.frame_map fid = some ⟨[r.current_timestamp], false⟩) := by
  simp only [LRUKReplacer.RecordAccess, h, if_true, if_pos]
  refine ⟨_, rfl, rfl, ?_, ?_⟩
  · intro fi hfi
    rw [lookupFrame_updateFrame_self]
    simp [hfi]
  · intro hnone
    rw [lookupFrame_updateFrame_self]
    simp only [hnone, Option.getD_none, FrameInfo.default0]
    have hk : ¬ r.k < (([] : List Nat) ++ [r.current_timestamp]).length := by
      simp; omega
    simp
    omega

/-- Witness for recordAccess_spec at a concrete state. -/
theorem recordAccess_spec_witness :
    (0 : Nat) < (3 : Nat) ∧
    ∃ r', LRUKReplacer.RecordAccess ⟨[], 5, 0, 3, 2, []⟩ 0 = some r' ∧
      r'.current_timestamp = 5 + 1 ∧
      (∀ fi, lookupFrame ([] : List (Nat × FrameInfo)) 0 = some fi →
        lookupFrame r'.frame_map 0 = some
          { fi with access_timestamps :=
              if (fi.access_timestamps ++ [5]).length > 2 then
                (fi.access_timestamps ++ [5]).tail
              else fi.access_timestamps ++ [5] }) ∧
      (lookupFrame ([] : List (Nat × FrameInfo)) 0 = none →
        lookupFrame r'.frame_map 0 = some ⟨[5], false⟩) :=
  ⟨by decide, recordAccess_spec ⟨[], 5, 0, 3, 2, []⟩ 0 (by decide) (by decide)⟩

/-- C10: remove on an in-range frame id with no record is a silent
no-op: the state (frame map and evictable count included) is returned
unchanged, and no assertion fires. -/
theorem remove_absent_noop (r : LRUKReplacer) (fid : Nat) (h : fid < r.replacer_size)
    (habs : lookupFrame r.frame_map fid = none) : r.Remove fid = some r := by
  simp [LRUKReplacer.Remove, h, habs]

/-- Witness for remove_absent_noop at a concrete state. -/
theorem remove_absent_noop_witness :
    (1 : Nat) < (4 : Nat) ∧
    lookupFrame ([(0, ⟨[3], true⟩)] : List (Nat × FrameInfo)) 1 = none ∧
    LRUKReplacer.Remove ⟨[(0, ⟨[3], true⟩)], 4, 1, 4, 2, [0]⟩ 1 =
      some ⟨[(0, ⟨[3], true⟩)], 4, 1, 4, 2, [0]⟩ :=
  ⟨by decide, by decide,
    remove_absent_noop ⟨[(0, ⟨[3], true⟩)], 4, 1, 4, 2, [0]⟩ 1 (by decide) (by decide)⟩

/-- An evictable record with fewer than k accesses (infinite backward
k-distance in the LRU-K policy). -/
def EInf (r : LRUKReplacer) (p : Nat × FrameInfo) : Prop :=
  p.2.evictable = true ∧ p.2.access_timestamps.length < r.k

/-- An evictable record with at least k accesses (finite backward
k-distance). -/
def EFin (r : LRUKReplacer) (p : Nat × FrameInfo) : Prop :=
  p.2.evictable = true ∧ r.k ≤ p.2.access_timestamps.length

/-- Well-formedness of a replacer state; it holds in every state
reachable through the public operations: the constructor asserts k ≥ 1,
timestamps are recorded values of the strictly increasing counter (so
they sit below it, and the counter stays far below the size_t maximum),
every record is created with at least one timestamp, and curr_size_
counts the evictable records. -/
def WFReplacer (r : LRUKReplacer) : Prop :=
  1 ≤ r.k ∧
  r.current_timestamp < USIZE_MAX ∧
  (∀ p ∈ r.frame_map, ∀ t ∈ p.2.access_timestamps, t < r.current_timestamp) ∧
  (∀ p ∈ r.frame_map, p.2.access_timestamps ≠ []) ∧
  r.curr_size = (r.frame_map.filter (fun p => p.2.evictable)).length

/-- The eviction victim described by the specification: frames with
fewer than k accesses dominate, ties broken by smallest
front-of-sequence timestamp; if every evictable frame has at least k
accesses, smallest front-of-sequence timestamp wins. -/
def IsLRUKVictim (r : LRUKReplacer) (v : Nat) : Prop :=
  ∃ fi, (v, fi) ∈ r.frame_map ∧ fi.evictable = true ∧
    ((fi.access_timestamps.length < r.k ∧
       ∀ p ∈ r.frame_map, EInf r p → frontTs fi ≤ frontTs p.2) ∨
     ((∀ p ∈ r.frame_map, p.2.evictable = true → r.k ≤ p.2.access_timestamps.length) ∧
       ∀ p ∈ r.frame_map, p.2.evictable = true → frontTs fi ≤ frontTs p.2))

theorem USIZE_MAX_pos : 0 < USIZE_MAX := by norm_num [USIZE_MAX]

/-- The invariant carried by the scan loop of Evict over the prefix
seen of the frame map. -/
def EvictInv (r : LRUKReplacer) (seen : List (Nat × FrameInfo)) (acc : EvictAcc) : Prop :=
  ((∀ p ∈ seen, p.2.evictable = false) ∧ acc = ⟨none, 0, USIZE_MAX⟩) ∨
  (acc.max_backward_dist = USIZE_MAX ∧
    ∃ v fi, acc.victim = some v ∧ (v, fi) ∈ seen ∧ EInf r (v, fi) ∧
      acc.earliest_first_ts = frontTs fi ∧
      ∀ p ∈ seen, EInf r p → frontTs fi ≤ frontTs p.2) ∨
  ((∀ p ∈ seen, p.2.evictable = true → EFin r p) ∧
    acc.earliest_first_ts = USIZE_MAX ∧
    ∃ v fi, acc.victim = some v ∧ (v, fi) ∈ seen ∧ EFin r (v, fi) ∧
      acc.max_backward_dist = r.current_timestamp - frontTs fi ∧
      ∀ p ∈ seen, EFin r p → frontTs fi ≤ frontTs p.2)

/-- In a well-formed state every record's front timestamp lies strictly
below the global counter. -/
theorem frontTs_lt_current (r : LRUKReplacer) (hwf : WFReplacer r)
    (p : Nat × FrameInfo) (hp : p ∈ r.frame_map) :
    frontTs p.2 < r.current_timestamp := by
  obtain ⟨-, -, hts, hne, -⟩ := hwf
  have h1 := hne p hp
  have h2 := hts p hp
  cases hl : p.2.access_timestamps with
  | nil => exact absurd hl h1
  | cons a t =>
    have ha : a ∈ p.2.access_timestamps := by
      rw [hl]; exact List.mem_cons_self a t
    have := h2 a ha
    simpa [frontTs, hl]

/-- One step of the Evict scan preserves the loop invariant. -/
theorem evictInv_step (r : LRUKReplacer) (hwf : WFReplacer r)
    (seen : List (Nat × FrameInfo)) (acc : EvictAcc) (p : Nat × FrameInfo)
    (hp : p ∈ r.frame_map) (hseen : ∀ q ∈ seen, q ∈ r.frame_map)
    (hinv : EvictInv r seen acc) :
    EvictInv r (seen ++ [p]) (evictStep r acc p) := by
  have hMAX := hwf.2.1
  by_cases hev : p.2.evictable = false
  · -- non-evictable frames are skipped
    rw [evictStep, if_pos hev]
    rcases hinv with ⟨h1, h2⟩ | ⟨hm, v, fi, hv, hmem, hinf, he, hmin⟩ |
      ⟨hall, he, v, fi, hv, hmem, hfin, hm, hmin⟩
    · exact Or.inl ⟨by
        intro q hq
        rcases List.mem_append.1 hq with hq | hq
        · exact h1 q hq
        · simp at hq; subst hq; exact hev, h2⟩
    · refine Or.inr (Or.inl ⟨hm, v, fi, hv, List.mem_append_left _ hmem, hinf, he, ?_⟩)
      intro q hq hqinf
      obtain ⟨hq1, hq2⟩ := hqinf
      rcases List.mem_append.1 hq with hq | hq
      · exact hmin q hq ⟨hq1, hq2⟩
      · simp at hq; subst hq; rw [hev] at hq1; simp at hq1
    · refine Or.inr (Or.inr ⟨?_, he, v, fi, hv, List.mem_append_left _ hmem, hfin, hm, ?_⟩)
      · intro q hq hqe
        rcases List.mem_append.1 hq with hq | hq
        · exact hall q hq hqe
        · simp at hq; subst hq; rw [hev] at hqe; simp at hqe
      · intro q hq hqfin
        obtain ⟨hq1, hq2⟩ := hqfin
        rcases List.mem_append.1 hq with hq | hq
        · exact hmin q hq ⟨hq1, hq2⟩
        · simp at hq; subst hq; rw [hev] at hq1; simp at hq1
  · have hev' : p.2.evictable = true := by
      cases h : p.2.evictable
      · exact absurd h hev
      · rfl
    by_cases hlen : p.2.access_timestamps.length < r.k
    · -- infinite backward distance case
      have hpinf : EInf r p := ⟨hev', hlen⟩
      rw [evictStep, if_neg hev, if_pos hlen]
      rcases hinv with ⟨h1, h2⟩ | ⟨hm, v, fi, hv, hmem, hinf, he, hmin⟩ |
        ⟨hall, he, v, fi, hv, hmem, hfin, hm, hmin⟩
      · -- first evictable frame observed
        rw [h2]
        rw [if_pos (by simpa using USIZE_MAX_pos)]
        refine Or.inr (Or.inl ⟨rfl, p.1, p.2, rfl, by simp, hpinf, rfl, ?_⟩)
        intro q hq hqinf
        obtain ⟨hq1, -⟩ := hqinf
        rcases List.mem_append.1 hq with hq | hq
        · rw [h1 q hq] at hq1; simp at hq1
        · simp at hq; subst hq; exact le_refl _
      · -- an infinite-distance victim is already held
        rw [hm, if_neg (by omega)]
        by_cases hlt : frontTs p.2 < acc.earliest_first_ts
        · rw [if_pos ⟨rfl, hlt⟩]
          refine Or.inr (Or.inl ⟨rfl, p.1, p.2, rfl, by simp, hpinf, rfl, ?_⟩)
          intro q hq hqinf
          rcases List.mem_append.1 hq with hq | hq
          · have := hmin q hq hqinf
            rw [he] at hlt
            omega
          · simp at hq; subst hq; exact le_refl _
        · rw [if_neg (by
            intro hcon
            exact hlt hcon.2)]
          refine Or.inr (Or.inl ⟨hm, v, fi, hv, List.mem_append_left _ hmem, hinf, he, ?_⟩)
          intro q hq hqinf
          rcases List.mem_append.1 hq with hq | hq
          · exact hmin q hq hqinf
          · simp at hq; subst hq
            rw [he] at hlt
            omega
      · -- only finite-distance frames were seen: the new frame dominates
        have hfo := frontTs_lt_current r hwf (v, fi) (hseen _ hmem)
        rw [hm, if_pos (by simp only [gt_iff_lt]; omega)]
        refine Or.inr (Or.inl ⟨rfl, p.1, p.2, rfl, by simp, hpinf, rfl, ?_⟩)
        intro q hq hqinf
        rcases List.mem_append.1 hq with hq | hq
        · have h5 := (hall q hq hqinf.1).2
          have h6 := hqinf.2
          omega
        · simp at hq; subst hq; exact le_refl _
    · -- finite backward distance case
      have hpfin : EFin r p := ⟨hev', by omega⟩
      have hfn := frontTs_lt_current r hwf p hp
      rw [evictStep, if_neg hev, if_neg hlen]
      rcases hinv with ⟨h1, h2⟩ | ⟨hm, v, fi, hv, hmem, hinf, he, hmin⟩ |
        ⟨hall, he, v, fi, hv, hmem, hfin, hm, hmin⟩
      · -- first evictable frame observed
        rw [h2]
        rw [if_pos (by simp only [gt_iff_lt]; omega)]
        refine Or.inr (Or.inr ⟨?_, rfl, p.1, p.2, rfl, by simp, hpfin, rfl, ?_⟩)
        · intro q hq hqe
          rcases List.mem_append.1 hq with hq | hq
          · rw [h1 q hq] at hqe; simp at hqe
          · simp at hq; subst hq; exact hpfin
        · intro q hq hqfin
          obtain ⟨hq1, -⟩ := hqfin
          rcases List.mem_append.1 hq with hq | hq
          · rw [h1 q hq] at hq1; simp at hq1
          · simp at hq; subst hq; exact le_refl _
      · -- an infinite-distance victim dominates any finite distance
        rw [hm, if_neg (by simp only [gt_iff_lt]; omega)]
        refine Or.inr (Or.inl ⟨hm, v, fi, hv, List.mem_append_left _ hmem, hinf, he, ?_⟩)
        intro q hq hqinf
        rcases List.mem_append.1 hq with hq | hq
        · exact hmin q hq hqinf
        · simp at hq; subst hq
          obtain ⟨-, hq2⟩ := hqinf
          omega
      · -- both finite: larger backward distance, i.e. smaller front, wins
        have hfo := frontTs_lt_current r hwf (v, fi) (hseen _ hmem)
        by_cases hgt : r.current_timestamp - frontTs p.2 > acc.max_backward_dist
        · rw [if_pos hgt]
          rw [hm] at hgt
          have hlt : frontTs p.2 < frontTs fi := by omega
          refine Or.inr (Or.inr ⟨?_, he, p.1, p.2, rfl, by simp, hpfin, rfl, ?_⟩)
          · intro q hq hqe
            rcases List.mem_append.1 hq with hq | hq
            · exact hall q hq hqe
            · simp at hq; subst hq; exact hpfin
          · intro q hq hqfin
            rcases List.mem_append.1 hq with hq | hq
            · have := hmin q hq hqfin
              omega
            · simp at hq; subst hq; exact le_refl _
        · rw [if_neg hgt]
          rw [hm] at hgt
          have hge : frontTs fi ≤ frontTs p.2 := by omega
          refine Or.inr (Or.inr ⟨?_, he, v, fi, hv, List.mem_append_left _ hmem, hfin, hm, ?_⟩)
          · intro q hq hqe
            rcases List.mem_append.1 hq with hq | hq
            · exact hall q hq hqe
            · simp at hq; subst hq; exact hpfin
          · intro q hq hqfin
            rcases List.mem_append.1 hq with hq | hq
            · exact hmin q hq hqfin
            · simp at hq; subst hq; exact hge

/-- The Evict scan, run over any suffix of the frame map, preserves the
loop invariant. -/
theorem evictInv_foldl (r : LRUKReplacer) (hwf : WFReplacer r) :
    ∀ (rest seen : List (Nat × FrameInfo)) (acc : EvictAcc),
      r.frame_map = seen ++ rest → EvictInv r seen acc →
      EvictInv r (seen ++ rest) (rest.foldl (evictStep r) acc) := by
  intro rest
  induction rest with
  | nil =>
    intro seen acc hsplit hinv
    simpa using hinv
  | cons p rest' ih =>
    intro seen acc hsplit hinv
    have hp : p ∈ r.frame_map := by
      rw [hsplit]; exact List.mem_append_right _ (List.mem_cons_self _ _)
    have hsub : ∀ q ∈ seen, q ∈ r.frame_map := by
      intro q hq
      rw [hsplit]; exact List.mem_append_left _ hq
    have hstep := evictInv_step r hwf seen acc p hp hsub hinv
    have hsplit' : r.frame_map = (seen ++ [p]) ++ rest' := by
      rw [hsplit, List.append_assoc]; rfl
    have := ih (seen ++ [p]) (evictStep r acc p) hsplit' hstep
    rw [List.append_assoc] at this
    simpa using this

/-- C1: in a well-formed replacer state, with no evictable frame evict
returns failure; with at least one evictable frame it returns the
LRU-K victim (fewer-than-k frames dominate, smallest front timestamp
wins, and among all-at-least-k frames the smallest front timestamp,
i.e. maximal backward distance, wins), erases the victim's record and
decrements the evictable count. -/
theorem evict_spec (r : LRUKReplacer) (hwf : WFReplacer r) :
    ((∀ p ∈ r.frame_map, p.2.evictable = false) → r.Evict = none) ∧
    ((∃ p ∈ r.frame_map, p.2.evictable = true) →
      ∃ v, IsLRUKVictim r v ∧
        r.Evict = some (v, { r with
          frame_map := eraseFrame r.frame_map v,
          curr_size := r.curr_size - 1 })) := by
  have hsz := hwf.2.2.2.2
  constructor
  · intro hall
    have hfil : r.frame_map.filter (fun p => p.2.evictable) = [] := by
      rw [List.filter_eq_nil_iff]
      intro a ha
      simp [hall a ha]
    rw [LRUKReplacer.Evict, if_pos (by rw [hsz, hfil]; rfl)]
  · rintro ⟨p, hp, hpe⟩
    have hpos : ¬ r.curr_size = 0 := by
      have hmem : p ∈ r.frame_map.filter (fun q => q.2.evictable) := by
        rw [List.mem_filter]
        exact ⟨hp, by simp [hpe]⟩
      have hlen := List.length_pos.2 (List.ne_nil_of_mem hmem)
      omega
    have hinv := evictInv_foldl r hwf r.frame_map [] ⟨none, 0, USIZE_MAX⟩
      (by simp) (Or.inl ⟨by simp, rfl⟩)
    simp only [List.nil_append] at hinv
    rcases hinv with ⟨h1, -⟩ | ⟨hm, v, fi, hv, hmem, hinf, he, hmin⟩ |
      ⟨hall, he, v, fi, hv, hmem, hfin, hm, hmin⟩
    · rw [h1 p hp] at hpe; simp at hpe
    · refine ⟨v, ⟨fi, hmem, hinf.1, Or.inl ⟨hinf.2, hmin⟩⟩, ?_⟩
      rw [LRUKReplacer.Evict, if_neg hpos, hv]
    · refine ⟨v, ⟨fi, hmem, hfin.1, Or.inr ⟨?_, ?_⟩⟩, ?_⟩
      · intro q hq hqe
        exact (hall q hq hqe).2
      · intro q hq hqe
        exact hmin q hq (hall q hq hqe)
      · rw [LRUKReplacer.Evict, if_neg hpos, hv]

/-- Witness for evict_spec at a concrete well-formed state: frame 0 has
one access (infinite distance), frame 1 has two. -/
theorem evict_spec_witness :
    WFReplacer ⟨[(0, ⟨[1], true⟩), (1, ⟨[2, 3], true⟩)], 4, 2, 3, 2, [0, 1]⟩ ∧
    ((∀ p ∈ [((0 : Nat), (⟨[1], true⟩ : FrameInfo)), (1, ⟨[2, 3], true⟩)],
        p.2.evictable = false) →
      LRUKReplacer.Evict ⟨[(0, ⟨[1], true⟩), (1, ⟨[2, 3], true⟩)], 4, 2, 3, 2, [0, 1]⟩ = none) ∧
    ((∃ p ∈ [((0 : Nat), (⟨[1], true⟩ : FrameInfo)), (1, ⟨[2, 3], true⟩)],
        p.2.evictable = true) →
      ∃ v, IsLRUKVictim ⟨[(0, ⟨[1], true⟩), (1, ⟨[2, 3], true⟩)], 4, 2, 3, 2, [0, 1]⟩ v ∧
        LRUKReplacer.Evict ⟨[(0, ⟨[1], true⟩), (1, ⟨[2, 3], true⟩)], 4, 2, 3, 2, [0, 1]⟩ =
          some (v, { (⟨[(0, ⟨[1], true⟩), (1, ⟨[2, 3], true⟩)], 4, 2, 3, 2, [0, 1]⟩ : LRUKReplacer) with
            frame_map := eraseFrame [(0, ⟨[1], true⟩), (1, ⟨[2, 3], true⟩)] v,
            curr_size := 2 - 1 })) := by
  have hwf : WFReplacer ⟨[(0, ⟨[1], true⟩), (1, ⟨[2, 3], true⟩)], 4, 2, 3, 2, [0, 1]⟩ :=
    ⟨by norm_num, by norm_num [USIZE_MAX], by decide, by decide, by decide⟩
  exact ⟨hwf, evict_spec _ hwf⟩

/-- A bucket of the extendible hash table (nested class Bucket in
extendible_hash_table.h): the key-value list, the capacity max_size_
and the local depth. -/
structure Bucket (K V : Type) where
  kv_pairs : List (K × V)
  max_size : Nat
  local_depth : Nat
deriving Repr, DecidableEq

/-- Placeholder bucket used as the default of list lookups; never the
value actually read in a well-formed state. -/
def defaultBucket {K V : Type} : Bucket K V := ⟨[], 0, 0⟩

/-- The scan of Bucket::Find over the key-value list: value of the
first pair with the given key. -/
def findPair {K V : Type} [DecidableEq K] (l : List (K × V)) (key : K) : Option V :=
  match l with
  | [] => none
  | p :: rest => if p.1 = key then some p.2 else findPair rest key

/-- The erase-first-match loop of Bucket::Remove. -/
def removeFirstKey {K V : Type} [DecidableEq K] (l : List (K × V)) (key : K) :
    List (K × V) :=
  match l with
  | [] => []
  | p :: rest => if p.1 = key then rest else p :: removeFirstKey rest key

/-- The overwrite loop of Bucket::Insert: replace the value of the
first pair with the given key. -/
def overwriteKey {K V : Type} [DecidableEq K] (l : List (K × V)) (key : K) (v : V) :
    List (K × V) :=
  match l with
  | [] => []
  | p :: rest => if p.1 = key then (key, v) :: rest else p :: overwriteKey rest key v

/-- Bucket::Find. -/
def Bucket.Find {K V : Type} [DecidableEq K] (b : Bucket K V) (key : K) : Option V :=
  findPair b.kv_pairs key

/-- Bucket::IsFull. -/
def Bucket.IsFull {K V : Type} (b : Bucket K V) : Prop :=
  b.max_size ≤ b.kv_pairs.length

instance {K V : Type} (b : Bucket K V) : Decidable b.IsFull :=
  inferInstanceAs (Decidable (_ ≤ _))

/-- Bucket::Remove: the returned Bool and the bucket afterwards. -/
def Bucket.Remove {K V : Type} [DecidableEq K] (b : Bucket K V) (key : K) :
    Bool × Bucket K V :=
  match findPair b.kv_pairs key with
  | none => (false, b)
  | some _ => (true, { b with kv_pairs := removeFirstKey b.kv_pairs key })

/-- Bucket::Insert: some of the updated bucket when it returns true
(overwrite of an existing key, or append when not full), none when the
bucket is full and the key absent. -/
def Bucket.Insert {K V : Type} [DecidableEq K] (b : Bucket K V) (key : K) (v : V) :
    Option (Bucket K V) :=
  if (findPair b.kv_pairs key).isSome then
    some { b with kv_pairs := overwriteKey b.kv_pairs key v }
  else if b.IsFull then none
  else some { b with kv_pairs := b.kv_pairs ++ [(key, v)] }

/-- The call new_bucket->Insert(...) in SplitBucket whose result is
discarded: on failure the bucket is left unchanged (the pair is
dropped). -/
def Bucket.insertIgnore {K V : Type} [DecidableEq K] (b : Bucket K V) (key : K) (v : V) :
    Bucket K V :=
  (b.Insert key v).getD b

/-- State of ExtendibleHashTable.  Bucket objects live in the arena
buckets; directory slots hold arena indices, modelling the Bucket
pointers of dir_ (several slots may hold the same index). -/
structure ExtendibleHashTable (K V : Type) where
  buckets : List (Bucket K V)
  dir : List Nat
  global_depth : Nat
  bucket_size : Nat
  num_buckets : Nat
deriving Repr, DecidableEq

/-- The constructor ExtendibleHashTable(bucket_size): directory of size
one pointing at a single empty bucket of local depth zero. -/
def ExtendibleHashTable.create (K V : Type) (bucket_size : Nat) :
    ExtendibleHashTable K V :=
  ⟨[⟨[], bucket_size, 0⟩], [0], 0, bucket_size, 1⟩

/-- ExtendibleHashTable::IndexOf: the low global_depth bits of the
hash, written with the same mask as the C++ code.  The hash function
std::hash is a parameter. -/
def ExtendibleHashTable.IndexOf {K V : Type} (hash : K → Nat)
    (t : ExtendibleHashTable K V) (key : K) : Nat :=
  hash key &&& (1 <<< t.global_depth - 1)

/-- ExtendibleHashTable::Find. -/
def ExtendibleHashTable.Find {K V : Type} [DecidableEq K] (hash : K → Nat)
    (t : ExtendibleHashTable K V) (key : K) : Option V :=
  let index := ExtendibleHashTable.IndexOf hash t key
  if t.dir.length ≤ index then none
  else (t.buckets.getD (t.dir.getD index 0) defaultBucket).Find key

/-- ExtendibleHashTable::Remove: the returned Bool and the table
afterwards. -/
def ExtendibleHashTable.Remove {K V : Type} [DecidableEq K] (hash : K → Nat)
    (t : ExtendibleHashTable K V) (key : K) : Bool × ExtendibleHashTable K V :=
  let index := ExtendibleHashTable.IndexOf hash t key
  if t.dir.length ≤ index then (false, t)
  else
    let bi := t.dir.getD index 0
    let b := t.buckets.getD bi defaultBucket
    match (b.Remove key).1, (b.Remove key).2 with
    | false, _ => (false, t)
    | true, b' => (true, { t with buckets := t.buckets.set bi b' })

/-- Directory doubling, step 1 of ExtendibleHashTable::SplitBucket:
the directory is extended by a copy of itself and global_depth grows
by one. -/
def doubleDir {K V : Type} (t : ExtendibleHashTable K V) : ExtendibleHashTable K V :=
  { t with dir := t.dir ++ t.dir, global_depth := t.global_depth + 1 }

/-- One iteration of the redistribution loop (step 5) of
ExtendibleHashTable::SplitBucket: a pair whose directory slot now
references the sibling bucket nb is inserted there (return value
discarded, as in the source) and dropped from the kept list; any other
pair is kept. -/
def redistStep {K V : Type} [DecidableEq K] (hash : K → Nat)
    (t : ExtendibleHashTable K V) (nb : Nat)
    (acc : List (K × V) × Bucket K V) (p : K × V) : List (K × V) × Bucket K V :=
  if t.dir.getD (ExtendibleHashTable.IndexOf hash t p.1) 0 = nb then
    (acc.1, acc.2.insertIgnore p.1 p.2)
  else (acc.1 ++ [p], acc.2)

/-- Steps 2 to 5 of ExtendibleHashTable::SplitBucket, performed after
the optional directory doubling: bump the local depth of bucket bi,
allocate the sibling bucket, repoint the directory slots whose split
bit is one, and redistribute the key-value pairs of bucket bi. -/
def splitCore {K V : Type} [DecidableEq K] (hash : K → Nat)
    (t : ExtendibleHashTable K V) (bi : Nat) : ExtendibleHashTable K V :=
  let new_local_depth := (t.buckets.getD bi defaultBucket).local_depth + 1
  let bumpedBucket :=
    { t.buckets.getD bi defaultBucket with local_depth := new_local_depth }
  let bumped := { t with buckets := t.buckets.set bi bumpedBucket }
  let nb := bumped.buckets.length
  let grown := { bumped with
                 buckets := bumped.buckets ++ [(⟨[], t.bucket_size, new_local_depth⟩ : Bucket K V)],
                 num_buckets := bumped.num_buckets + 1 }
  let split_bit := new_local_depth - 1
  let newDir := (List.range grown.dir.length).map (fun i =>
    if grown.dir.getD i 0 = bi ∧ i &&& 1 <<< split_bit ≠ 0 then nb
    else grown.dir.getD i 0)
  let repointed := { grown with dir := newDir }
  let redist := (repointed.buckets.getD bi defaultBucket).kv_pairs.foldl
      (redistStep hash repointed nb) ([], repointed.buckets.getD nb defaultBucket)
  let keptBucket :=
    { repointed.buckets.getD bi defaultBucket with kv_pairs := redist.1 }
  { repointed with
    buckets := (repointed.buckets.set bi keptBucket).set nb redist.2 }

/-- ExtendibleHashTable::SplitBucket. -/
def ExtendibleHashTable.SplitBucket {K V : Type} [DecidableEq K] (hash : K → Nat)
    (t : ExtendibleHashTable K V) (bi : Nat) : ExtendibleHashTable K V :=
  let t1 := if (t.buckets.getD bi defaultBucket).local_depth = t.global_depth then
      doubleDir t
    else t
  splitCore hash t1 bi

/-- The while loop of ExtendibleHashTable::Insert, with fuel: none
models non-termination (a degenerate hash can make the loop split
forever, which the specification accepts as caller responsibility). -/
def ExtendibleHashTable.InsertLoop {K V : Type} [DecidableEq K] (hash : K → Nat)
    (fuel : Nat) (t : ExtendibleHashTable K V) (key : K) (v : V) :
    Option (ExtendibleHashTable K V) :=
  match fuel with
  | 0 => none
  | fuel + 1 =>
    let index := ExtendibleHashTable.IndexOf hash t key
    let bi := t.dir.getD index 0
    match (t.buckets.getD bi defaultBucket).Insert key v with
    | some b' => some { t with buckets := t.buckets.set bi b' }
    | none => ExtendibleHashTable.InsertLoop hash fuel
        (ExtendibleHashTable.SplitBucket hash t bi) key v

/-- getD of a valid index is a member. -/
theorem getD_mem_of_lt (l : List Nat) (i : Nat) (h : i < l.length) :
    l.getD i 0 ∈ l := by
  rw [List.getD_eq_getElem l 0 h]
  exact List.getElem_mem h

/-- getD after set at the written index. -/
theorem getD_set_self (l : List α) (i : Nat) (a d : α) (h : i < l.length) :
    (l.set i a).getD i d = a := by
  rw [List.getD_eq_getElem _ d (by simpa using h)]
  simp

/-- getD after set at a different index. -/
theorem getD_set_of_ne (l : List α) (i j : Nat) (a d : α) (h : i ≠ j) :
    (l.set i a).getD j d = l.getD j d := by
  by_cases hj : j < l.length
  · rw [List.getD_eq_getElem _ d (by simpa using hj), List.getD_eq_getElem _ d hj]
    exact List.getElem_set_ne h _
  · rw [List.getD_eq_default _ d (by simp; omega), List.getD_eq_default _ d (by omega)]

/-- getD of a tabulated list. -/
theorem getD_range_map (f : Nat → Nat) (n i : Nat) (h : i < n) :
    ((List.range n).map f).getD i 0 = f i := by
  rw [List.getD_eq_getElem _ 0 (by simpa using h)]
  simp

/-- getD on the concatenation of a list with itself, for an index below
twice the length. -/
theorem getD_append_self_mod (l : List Nat) (i : Nat) (h : i < l.length + l.length) :
    (l ++ l).getD i 0 = l.getD (i % l.length) 0 := by
  by_cases h1 : i < l.length
  · rw [List.getD_append _ _ _ _ h1, Nat.mod_eq_of_lt h1]
  · push_neg at h1
    rw [List.getD_append_right _ _ _ _ h1]
    congr 1
    rw [Nat.mod_eq_sub_mod h1, Nat.mod_eq_of_lt (by omega)]

/-- The directory split-bit mask test of the source, in arithmetic
form. -/
theorem and_one_shift_ne_zero_iff (i b : Nat) :
    i &&& 1 <<< b ≠ 0 ↔ i / 2 ^ b % 2 = 1 := by
  rw [Nat.one_shiftLeft, Nat.and_two_pow, Nat.testBit_to_div_mod]
  by_cases h : i / 2 ^ b % 2 = 1
  · simp [h]
  · simp [h]

/-- Two numbers congruent modulo 2 to the b and with equal bit b are
congruent modulo 2 to the b+1. -/
theorem mod_two_pow_succ_eq (i j b : Nat) (hmod : i % 2 ^ b = j % 2 ^ b)
    (hbit : i / 2 ^ b % 2 = j / 2 ^ b % 2) :
    i % 2 ^ (b + 1) = j % 2 ^ (b + 1) := by
  rw [pow_succ, Nat.mod_mul, Nat.mod_mul, hmod, hbit]

/-- IndexOf is reduction of the hash modulo 2 to the global depth. -/
theorem indexOf_eq_mod {K V : Type} (hash : K → Nat) (t : ExtendibleHashTable K V)
    (key : K) :
    ExtendibleHashTable.IndexOf hash t key = hash key % 2 ^ t.global_depth := by
  rw [ExtendibleHashTable.IndexOf, Nat.one_shiftLeft, Nat.and_pow_two_sub_one_eq_mod]

/-- IndexOf lands below 2 to the global depth. -/
theorem indexOf_lt {K V : Type} (hash : K → Nat) (t : ExtendibleHashTable K V)
    (key : K) :
    ExtendibleHashTable.IndexOf hash t key < 2 ^ t.global_depth := by
  rw [indexOf_eq_mod]
  exact Nat.mod_lt _ (Nat.pos_pow_of_pos _ (by norm_num))

/-- The structural invariants of the extendible hash table: the
directory has length 2 to the global depth, directory slots reference
arena buckets, local depths never exceed the global depth, and — the
property of claim C7 — all slots referencing one bucket agree modulo
2 to its local depth. -/
structure TableWF {K V : Type} (t : ExtendibleHashTable K V) : Prop where
  dir_len : t.dir.length = 2 ^ t.global_depth
  dir_lt : ∀ b ∈ t.dir, b < t.buckets.length
  ld_le : ∀ b ∈ t.dir, (t.buckets.getD b defaultBucket).local_depth ≤ t.global_depth
  cong : ∀ i j, i < t.dir.length → j < t.dir.length → t.dir.getD i 0 = t.dir.getD j 0 →
    i % 2 ^ (t.buckets.getD (t.dir.getD i 0) defaultBucket).local_depth =
      j % 2 ^ (t.buckets.getD (t.dir.getD i 0) defaultBucket).local_depth

/-- The invariants only depend on the directory, the global depth, the
arena size and the local-depth map. -/
theorem tableWF_transfer {K V : Type} (t t' : ExtendibleHashTable K V)
    (hdir : t'.dir = t.dir) (hgd : t'.global_depth = t.global_depth)
    (hlen : t'.buckets.length = t.buckets.length)
    (hld : ∀ b, (t'.buckets.getD b defaultBucket).local_depth =
      (t.buckets.getD b defaultBucket).local_depth)
    (hwf : TableWF t) : TableWF t' := by
  obtain ⟨h1, h2, h3, h4⟩ := hwf
  refine ⟨by rw [hdir, hgd]; exact h1, ?_, ?_, ?_⟩
  · intro b hb
    rw [hdir] at hb
    rw [hlen]
    exact h2 b hb
  · intro b hb
    rw [hdir] at hb
    rw [hgd, hld]
    exact h3 b hb
  · intro i j hi hj hij
    rw [hdir] at hi hj hij ⊢
    rw [hld]
    exact h4 i j hi hj hij

/-- The invariants hold for the freshly constructed table. -/
theorem tableWF_create (K V : Type) (bucket_size : Nat) :
    TableWF (ExtendibleHashTable.create K V bucket_size) := by
  refine ⟨by simp [ExtendibleHashTable.create], by simp [ExtendibleHashTable.create],
    by simp [ExtendibleHashTable.create, defaultBucket], ?_⟩
  intro i j hi hj _
  simp only [ExtendibleHashTable.create, List.length_singleton] at hi hj
  have hi0 : i = 0 := by omega
  have hj0 : j = 0 := by omega
  rw [hi0, hj0]

/-- Directory doubling preserves the invariants. -/
theorem tableWF_doubleDir {K V : Type} (t : ExtendibleHashTable K V)
    (hwf : TableWF t) : TableWF (doubleDir t) := by
  obtain ⟨h1, h2, h3, h4⟩ := hwf
  have hpos : 0 < t.dir.length := by
    rw [h1]; exact Nat.pos_pow_of_pos _ (by norm_num)
  refine ⟨?_, ?_, ?_, ?_⟩
  · simp [doubleDir, h1]
    ring
  · intro b hb
    simp only [doubleDir, List.mem_append] at hb
    rcases hb with hb | hb <;> exact h2 b hb
  · intro b hb
    simp only [doubleDir, List.mem_append] at hb
    rcases hb with hb | hb <;> exact Nat.le_succ_of_le (h3 b hb)
  · intro i j hi hj hij
    simp only [doubleDir, List.length_append] at hi hj
    simp only [doubleDir] at hij ⊢
    rw [getD_append_self_mod t.dir i (by omega), getD_append_self_mod t.dir j (by omega)]
      at hij
    rw [getD_append_self_mod t.dir i (by omega)]
    have hi' : i % t.dir.length < t.dir.length := Nat.mod_lt _ hpos
    have hj' : j % t.dir.length < t.dir.length := Nat.mod_lt _ hpos
    have hc := h4 _ _ hi' hj' hij
    have hmem := getD_mem_of_lt t.dir _ hi'
    have hle := h3 _ hmem
    have hdvd : 2 ^ (t.buckets.getD (t.dir.getD (i % t.dir.length) 0)
        defaultBucket).local_depth ∣ t.dir.length := by
      conv_rhs => rw [h1]
      exact pow_dvd_pow 2 hle
    calc i % 2 ^ _ = i % t.dir.length % 2 ^ _ := (Nat.mod_mod_of_dvd i hdvd).symm
      _ = j % t.dir.length % 2 ^ _ := by rw [hc]
      _ = j % 2 ^ _ := Nat.mod_mod_of_dvd j hdvd

/-- The discarded-result insert never changes a bucket's local depth. -/
theorem insertIgnore_local_depth {K V : Type} [DecidableEq K] (b : Bucket K V)
    (key : K) (v : V) : (b.insertIgnore key v).local_depth = b.local_depth := by
  rw [Bucket.insertIgnore, Bucket.Insert]
  split_ifs <;> simp

/-- The redistribution loop never changes the sibling bucket's local
depth. -/
theorem redist_foldl_ld {K V : Type} [DecidableEq K] (hash : K → Nat)
    (t : ExtendibleHashTable K V) (nb : Nat) (l : List (K × V)) :
    ∀ acc : List (K × V) × Bucket K V,
      ((l.foldl (redistStep hash t nb) acc).2).local_depth = acc.2.local_depth := by
  induction l with
  | nil => intro acc; rfl
  | cons p rest ih =>
    intro acc
    rw [List.foldl_cons, ih, redistStep]
    split_ifs <;> simp [insertIgnore_local_depth]

/-- splitCore leaves the global depth unchanged. -/
theorem splitCore_global_depth {K V : Type} [DecidableEq K] (hash : K → Nat)
    (t : ExtendibleHashTable K V) (bi : Nat) :
    (splitCore hash t bi).global_depth = t.global_depth := rfl

/-- splitCore leaves the bucket size unchanged. -/
theorem splitCore_bucket_size {K V : Type} [DecidableEq K] (hash : K → Nat)
    (t : ExtendibleHashTable K V) (bi : Nat) :
    (splitCore hash t bi).bucket_size = t.bucket_size := rfl

/-- splitCore grows the arena by exactly the sibling bucket. -/
theorem splitCore_buckets_length {K V : Type} [DecidableEq K] (hash : K → Nat)
    (t : ExtendibleHashTable K V) (bi : Nat) :
    (splitCore hash t bi).buckets.length = t.buckets.length + 1 := by
  simp [splitCore]

/-- The directory produced by splitCore: slots referencing bi whose
split bit is one are repointed to the fresh arena index. -/
theorem splitCore_dir {K V : Type} [DecidableEq K] (hash : K → Nat)
    (t : ExtendibleHashTable K V) (bi : Nat) :
    (splitCore hash t bi).dir = (List.range t.dir.length).map (fun i =>
      if t.dir.getD i 0 = bi ∧
          i &&& 1 <<< (t.buckets.getD bi defaultBucket).local_depth ≠ 0 then
        t.buckets.length
      else t.dir.getD i 0) := by
  simp [splitCore]

/-- The local-depth map after splitCore: the split bucket and its
sibling carry the incremented depth, everything else is unchanged. -/
theorem splitCore_ld {K V : Type} [DecidableEq K] (hash : K → Nat)
    (t : ExtendibleHashTable K V) (bi : Nat) (hbi : bi < t.buckets.length) (b : Nat) :
    ((splitCore hash t bi).buckets.getD b defaultBucket).local_depth =
      if b = bi ∨ b = t.buckets.length then
        (t.buckets.getD bi defaultBucket).local_depth + 1
      else (t.buckets.getD b defaultBucket).local_depth := by
  have hlenset : (t.buckets.set bi
      ({ t.buckets.getD bi defaultBucket with local_depth :=
        (t.buckets.getD bi defaultBucket).local_depth + 1 })).length = t.buckets.length :=
    List.length_set ..
  simp only [splitCore, hlenset]
  by_cases hb1 : b = t.buckets.length
  · subst hb1
    rw [getD_set_self _ _ _ _ (by simp [hlenset]; try omega)]
    rw [if_pos (Or.inr rfl)]
    rw [redist_foldl_ld]
    have : bi ≠ t.buckets.length := by omega
    simp only []
    rw [List.getD_append_right _ _ _ _ (by simp [hlenset])]
    simp [hlenset]
  · rw [getD_set_of_ne _ _ _ _ _ (by omega)]
    by_cases hb2 : b = bi
    · subst hb2
      rw [getD_set_self _ _ _ _ (by simp [hlenset]; try omega)]
      rw [if_pos (Or.inl rfl)]
      simp only []
      rw [List.getD_append _ _ _ _ (by simp [hlenset]; try omega)]
      rw [getD_set_self _ _ _ _ hbi]
    · rw [getD_set_of_ne _ _ _ _ _ (Ne.symm hb2)]
      rw [if_neg (by tauto)]
      by_cases hb3 : b < t.buckets.length
      · rw [List.getD_append _ _ _ _ (by simp [hlenset]; try omega)]
        rw [getD_set_of_ne _ _ _ _ _ (Ne.symm hb2)]
      · rw [List.getD_eq_default _ _ (by simp [hlenset]; try omega)]
        rw [List.getD_eq_default _ _ (by omega)]

/-- splitCore preserves the invariants when the split bucket is
referenced by the directory and its local depth is strictly below the
global depth (guaranteed by the doubling step). -/
theorem tableWF_splitCore {K V : Type} [DecidableEq K] (hash : K → Nat)
    (t : ExtendibleHashTable K V) (bi : Nat) (hwf : TableWF t) (hbi : bi ∈ t.dir)
    (hld : (t.buckets.getD bi defaultBucket).local_depth < t.global_depth) :
    TableWF (splitCore hash t bi) := by
  obtain ⟨h1, h2, h3, h4⟩ := hwf
  have hbiL : bi < t.buckets.length := h2 bi hbi
  refine ⟨?_, ?_, ?_, ?_⟩
  · rw [splitCore_dir, splitCore_global_depth]
    simpa using h1
  · intro b hb
    rw [splitCore_dir] at hb
    rw [splitCore_buckets_length]
    simp only [List.mem_map, List.mem_range] at hb
    obtain ⟨i, hi, hfi⟩ := hb
    by_cases hc : t.dir.getD i 0 = bi ∧
        i &&& 1 <<< (t.buckets.getD bi defaultBucket).local_depth ≠ 0
    · rw [if_pos hc] at hfi
      omega
    · rw [if_neg hc] at hfi
      have := h2 _ (getD_mem_of_lt t.dir i hi)
      omega
  · intro b hb
    rw [splitCore_dir] at hb
    rw [splitCore_global_depth, splitCore_ld hash t bi hbiL]
    simp only [List.mem_map, List.mem_range] at hb
    obtain ⟨i, hi, hfi⟩ := hb
    by_cases hc : t.dir.getD i 0 = bi ∧
        i &&& 1 <<< (t.buckets.getD bi defaultBucket).local_depth ≠ 0
    · rw [if_pos hc] at hfi
      rw [if_pos (Or.inr hfi.symm)]
      omega
    · rw [if_neg hc] at hfi
      by_cases heq : b = bi
      · rw [if_pos (Or.inl heq)]
        omega
      · have hblt := h2 _ (getD_mem_of_lt t.dir i hi)
        rw [if_neg (by omega)]
        rw [← hfi]
        exact h3 _ (getD_mem_of_lt t.dir i hi)
  · intro i j hi hj hij
    have hdirlen : (splitCore hash t bi).dir.length = t.dir.length := by
      rw [splitCore_dir]; simp
    rw [hdirlen] at hi hj
    have hgi : (splitCore hash t bi).dir.getD i 0 =
        (if t.dir.getD i 0 = bi ∧
            i &&& 1 <<< (t.buckets.getD bi defaultBucket).local_depth ≠ 0 then
          t.buckets.length
        else t.dir.getD i 0) := by
      rw [splitCore_dir]
      exact getD_range_map _ _ _ hi
    have hgj : (splitCore hash t bi).dir.getD j 0 =
        (if t.dir.getD j 0 = bi ∧
            j &&& 1 <<< (t.buckets.getD bi defaultBucket).local_depth ≠ 0 then
          t.buckets.length
        else t.dir.getD j 0) := by
      rw [splitCore_dir]
      exact getD_range_map _ _ _ hj
    rw [hgi, hgj] at hij
    rw [hgi, splitCore_ld hash t bi hbiL]
    have hilt := h2 _ (getD_mem_of_lt t.dir i hi)
    have hjlt := h2 _ (getD_mem_of_lt t.dir j hj)
    by_cases hci : t.dir.getD i 0 = bi ∧
        i &&& 1 <<< (t.buckets.getD bi defaultBucket).local_depth ≠ 0
    · by_cases hcj : t.dir.getD j 0 = bi ∧
          j &&& 1 <<< (t.buckets.getD bi defaultBucket).local_depth ≠ 0
      · rw [if_pos hci]
        rw [if_pos (Or.inr rfl)]
        have hcong := h4 i j hi hj (by rw [hci.1, hcj.1])
        rw [hci.1] at hcong
        have hbit_i := (and_one_shift_ne_zero_iff i _).1 hci.2
        have hbit_j := (and_one_shift_ne_zero_iff j _).1 hcj.2
        exact mod_two_pow_succ_eq i j _ hcong (by rw [hbit_i, hbit_j])
      · rw [if_pos hci, if_neg hcj] at hij
        omega
    · by_cases hcj : t.dir.getD j 0 = bi ∧
          j &&& 1 <<< (t.buckets.getD bi defaultBucket).local_depth ≠ 0
      · rw [if_neg hci, if_pos hcj] at hij
        omega
      · rw [if_neg hci, if_neg hcj] at hij
        rw [if_neg hci]
        by_cases hbieq : t.dir.getD i 0 = bi
        · have hbjeq : t.dir.getD j 0 = bi := by rw [← hij, hbieq]
          rw [if_pos (Or.inl hbieq)]
          have hcong := h4 i j hi hj hij
          rw [hbieq] at hcong
          have hbit_i : i / 2 ^ (t.buckets.getD bi defaultBucket).local_depth % 2 = 0 := by
            have hz : i &&& 1 <<< (t.buckets.getD bi defaultBucket).local_depth = 0 :=
              not_not.mp (fun hb => hci ⟨hbieq, hb⟩)
            have hn1 : ¬ i / 2 ^ (t.buckets.getD bi defaultBucket).local_depth % 2 = 1 :=
              fun hmod => (and_one_shift_ne_zero_iff i _).2 hmod hz
            omega
          have hbit_j : j / 2 ^ (t.buckets.getD bi defaultBucket).local_depth % 2 = 0 := by
            have hz : j &&& 1 <<< (t.buckets.getD bi defaultBucket).local_depth = 0 :=
              not_not.mp (fun hb => hcj ⟨hbjeq, hb⟩)
            have hn1 : ¬ j / 2 ^ (t.buckets.getD bi defaultBucket).local_depth % 2 = 1 :=
              fun hmod => (and_one_shift_ne_zero_iff j _).2 hmod hz
            omega
          exact mod_two_pow_succ_eq i j _ hcong (by rw [hbit_i, hbit_j])
        · have hbjeq : ¬ t.dir.getD j 0 = bi := by rw [← hij]; exact hbieq
          rw [if_neg (by omega)]
          exact h4 i j hi hj hij

/-- Replacing one arena bucket by a bucket of equal local depth
preserves the invariants. -/
theorem tableWF_set_bucket {K V : Type} (t : ExtendibleHashTable K V) (bi : Nat)
    (b' : Bucket K V)
    (hld : b'.local_depth = (t.buckets.getD bi defaultBucket).local_depth)
    (hwf : TableWF t) : TableWF { t with buckets := t.buckets.set bi b' } := by
  refine tableWF_transfer t { t with buckets := t.buckets.set bi b' } rfl rfl
    (List.length_set ..) ?_ hwf
  · intro b
    by_cases hb : b = bi
    · subst hb
      by_cases hbl : b < t.buckets.length
      · rw [getD_set_self _ _ _ _ hbl, hld]
      · rw [List.getD_eq_default _ _ (by simp; omega), List.getD_eq_default _ _ (by omega)]
    · rw [getD_set_of_ne _ _ _ _ _ (fun hc => hb hc.symm)]

/-- SplitBucket preserves the invariants for a bucket referenced by
the directory. -/
theorem tableWF_splitBucket {K V : Type} [DecidableEq K] (hash : K → Nat)
    (t : ExtendibleHashTable K V) (bi : Nat) (hwf : TableWF t) (hbi : bi ∈ t.dir) :
    TableWF (ExtendibleHashTable.SplitBucket hash t bi) := by
  rw [ExtendibleHashTable.SplitBucket]
  by_cases h : (t.buckets.getD bi defaultBucket).local_depth = t.global_depth
  · rw [if_pos h]
    refine tableWF_splitCore hash (doubleDir t) bi (tableWF_doubleDir t hwf) ?_ ?_
    · exact List.mem_append_left _ hbi
    · show (t.buckets.getD bi defaultBucket).local_depth < t.global_depth + 1
      omega
  · rw [if_neg h]
    refine tableWF_splitCore hash t bi hwf hbi ?_
    have := hwf.ld_le bi hbi
    omega

/-- A successful bucket insert keeps the local depth. -/
theorem insert_some_local_depth {K V : Type} [DecidableEq K] (b b' : Bucket K V)
    (key : K) (v : V) (h : b.Insert key v = some b') :
    b'.local_depth = b.local_depth := by
  rw [Bucket.Insert] at h
  split_ifs at h
  · injection h with h2
    rw [← h2]
  · injection h with h2
    rw [← h2]

/-- The insertion loop preserves the invariants. -/
theorem tableWF_insertLoop {K V : Type} [DecidableEq K] (hash : K → Nat) (fuel : Nat) :
    ∀ (t t' : ExtendibleHashTable K V) (key : K) (v : V), TableWF t →
      ExtendibleHashTable.InsertLoop hash fuel t key v = some t' → TableWF t' := by
  induction fuel with
  | zero =>
    intro t t' key v hwf h
    simp [ExtendibleHashTable.InsertLoop] at h
  | succ fuel ih =>
    intro t t' key v hwf h
    rw [ExtendibleHashTable.InsertLoop] at h
    rcases hins : (t.buckets.getD
        (t.dir.getD (ExtendibleHashTable.IndexOf hash t key) 0)
        defaultBucket).Insert key v with _ | b'
    · rw [hins] at h
      have hmem : t.dir.getD (ExtendibleHashTable.IndexOf hash t key) 0 ∈ t.dir := by
        apply getD_mem_of_lt
        rw [hwf.dir_len]
        exact indexOf_lt hash t key
      exact ih _ _ _ _ (tableWF_splitBucket hash t _ hwf hmem) h
    · rw [hins] at h
      rw [Option.some_inj] at h
      rw [← h]
      exact tableWF_set_bucket t _ b' (insert_some_local_depth _ _ _ _ hins) hwf

/-- Removal preserves the invariants. -/
theorem tableWF_remove {K V : Type} [DecidableEq K] (hash : K → Nat)
    (t : ExtendibleHashTable K V) (key : K) (hwf : TableWF t) :
    TableWF (ExtendibleHashTable.Remove hash t key).2 := by
  simp only [ExtendibleHashTable.Remove]
  split_ifs with h
  · exact hwf
  · rcases hrem : ((t.buckets.getD
        (t.dir.getD (ExtendibleHashTable.IndexOf hash t key) 0)
        defaultBucket).Remove key) with ⟨fl, b'⟩
    cases fl
    · exact hwf
    · apply tableWF_set_bucket t _ b' _ hwf
      rw [Bucket.Remove] at hrem
      rcases hfp : findPair ((t.buckets.getD
          (t.dir.getD (ExtendibleHashTable.IndexOf hash t key) 0)
          defaultBucket)).kv_pairs key with _ | w
      · rw [hfp] at hrem
        exact absurd hrem (by simp)
      · rw [hfp] at hrem
        injection hrem with h1 h2
        rw [← h2]

/-- Overwriting an existing key makes the first occurrence carry the
new value. -/
theorem findPair_overwriteKey {K V : Type} [DecidableEq K] (l : List (K × V))
    (key : K) (v : V) (h : (findPair l key).isSome) :
    findPair (overwriteKey l key v) key = some v := by
  induction l with
  | nil => simp [findPair] at h
  | cons p rest ih =>
    by_cases hp : p.1 = key
    · simp [overwriteKey, findPair, hp]
    · simp only [findPair, hp, if_neg] at h
      simp [overwriteKey, findPair, hp]
      exact ih h

/-- Appending a fresh key makes it found. -/
theorem findPair_append_last {K V : Type} [DecidableEq K] (l : List (K × V))
    (key : K) (v : V) (h : findPair l key = none) :
    findPair (l ++ [(key, v)]) key = some v := by
  induction l with
  | nil => simp [findPair]
  | cons p rest ih =>
    by_cases hp : p.1 = key
    · simp [findPair, hp] at h
    · simp only [findPair, hp, if_neg] at h
      simp [findPair, hp]
      exact ih h

/-- After a successful bucket insert the key is found with the
inserted value. -/
theorem insert_some_findPair {K V : Type} [DecidableEq K] (b b' : Bucket K V)
    (key : K) (v : V) (h : b.Insert key v = some b') :
    findPair b'.kv_pairs key = some v := by
  rw [Bucket.Insert] at h
  split_ifs at h with h1 h2
  · rw [Option.some_inj] at h
    rw [← h]
    exact findPair_overwriteKey _ _ _ h1
  · rw [Option.some_inj] at h
    rw [← h]
    exact findPair_append_last _ _ _ (Option.not_isSome_iff_eq_none.1 h1)

/-- After a successful insertion loop the key is present, with its
value, in the bucket its directory slot references. -/
theorem insertLoop_findPair {K V : Type} [DecidableEq K] (hash : K → Nat) (fuel : Nat) :
    ∀ (t t' : ExtendibleHashTable K V) (key : K) (v : V), TableWF t →
      ExtendibleHashTable.InsertLoop hash fuel t key v = some t' →
      findPair ((t'.buckets.getD
        (t'.dir.getD (ExtendibleHashTable.IndexOf hash t' key) 0)
        defaultBucket)).kv_pairs key = some v := by
  induction fuel with
  | zero =>
    intro t t' key v hwf h
    simp [ExtendibleHashTable.InsertLoop] at h
  | succ fuel ih =>
    intro t t' key v hwf h
    rw [ExtendibleHashTable.InsertLoop] at h
    rcases hins : (t.buckets.getD
        (t.dir.getD (ExtendibleHashTable.IndexOf hash t key) 0)
        defaultBucket).Insert key v with _ | b'
    · rw [hins] at h
      have hmem : t.dir.getD (ExtendibleHashTable.IndexOf hash t key) 0 ∈ t.dir := by
        apply getD_mem_of_lt
        rw [hwf.dir_len]
        exact indexOf_lt hash t key
      exact ih _ _ _ _ (tableWF_splitBucket hash t _ hwf hmem) h
    · rw [hins] at h
      rw [Option.some_inj] at h
      have hbiL : t.dir.getD (ExtendibleHashTable.IndexOf hash t key) 0 <
          t.buckets.length := by
        apply hwf.dir_lt
        apply getD_mem_of_lt
        rw [hwf.dir_len]
        exact indexOf_lt hash t key
      rw [← h]
      show findPair (((t.buckets.set
          (t.dir.getD (ExtendibleHashTable.IndexOf hash t key) 0) b').getD
          (t.dir.getD (ExtendibleHashTable.IndexOf hash t key) 0)
          defaultBucket)).kv_pairs key = some v
      rw [getD_set_self _ _ _ _ hbiL]
      exact insert_some_findPair _ _ _ _ hins

/-- Find after replacing the bucket that the key's slot references
returns that bucket's find result. -/
theorem find_after_set {K V : Type} [DecidableEq K] (hash : K → Nat)
    (t : ExtendibleHashTable K V) (b2 : Bucket K V) (key : K)
    (hidx : ExtendibleHashTable.IndexOf hash t key < t.dir.length)
    (hbiL : t.dir.getD (ExtendibleHashTable.IndexOf hash t key) 0 < t.buckets.length) :
    ExtendibleHashTable.Find hash
      { t with buckets :=
          t.buckets.set (t.dir.getD (ExtendibleHashTable.IndexOf hash t key) 0) b2 }
      key = b2.Find key := by
  have hieq : ExtendibleHashTable.IndexOf hash
      { t with buckets :=
          t.buckets.set (t.dir.getD (ExtendibleHashTable.IndexOf hash t key) 0) b2 }
      key = ExtendibleHashTable.IndexOf hash t key := rfl
  simp only [ExtendibleHashTable.Find, hieq]
  rw [if_neg (by omega)]
  rw [getD_set_self _ _ _ _ hbiL]

/-- C6: after a successful insert of (key, v) a second insert of
(key, v') overwrites the value in place, and find returns v'. -/
theorem insert_insert_find {K V : Type} [DecidableEq K] (hash : K → Nat)
    (t t1 : ExtendibleHashTable K V) (key : K) (v v' : V) (fuel fuel' : Nat)
    (hwf : TableWF t)
    (h1 : ExtendibleHashTable.InsertLoop hash fuel t key v = some t1) :
    ∃ t2, ExtendibleHashTable.InsertLoop hash (fuel' + 1) t1 key v' = some t2 ∧
      ExtendibleHashTable.Find hash t2 key = some v' := by
  have hwf1 := tableWF_insertLoop hash fuel t t1 key v hwf h1
  have hpres := insertLoop_findPair hash fuel t t1 key v hwf h1
  have hidx : ExtendibleHashTable.IndexOf hash t1 key < t1.dir.length := by
    rw [hwf1.dir_len]
    exact indexOf_lt hash t1 key
  have hbiL : t1.dir.getD (ExtendibleHashTable.IndexOf hash t1 key) 0 <
      t1.buckets.length :=
    hwf1.dir_lt _ (getD_mem_of_lt _ _ hidx)
  rw [ExtendibleHashTable.InsertLoop]
  have hbins : (t1.buckets.getD
      (t1.dir.getD (ExtendibleHashTable.IndexOf hash t1 key) 0)
      defaultBucket).Insert key v' = some
      { t1.buckets.getD (t1.dir.getD (ExtendibleHashTable.IndexOf hash t1 key) 0)
          defaultBucket with
        kv_pairs := overwriteKey (t1.buckets.getD
          (t1.dir.getD (ExtendibleHashTable.IndexOf hash t1 key) 0)
          defaultBucket).kv_pairs key v' } := by
    rw [Bucket.Insert, if_pos (by rw [hpres]; rfl)]
  rw [hbins]
  refine ⟨_, rfl, ?_⟩
  rw [find_after_set hash t1 _ key hidx hbiL]
  rw [Bucket.Find]
  exact findPair_overwriteKey _ _ _ (by rw [hpres]; rfl)

/-- Witness for insert_insert_find at a concrete table. -/
theorem insert_insert_find_witness :
    ExtendibleHashTable.InsertLoop (fun k => k) 1
      (ExtendibleHashTable.create Nat Nat 2) 0 5 =
      some ⟨[⟨[(0, 5)], 2, 0⟩], [0], 0, 2, 1⟩ ∧
    ∃ t2, ExtendibleHashTable.InsertLoop (fun k => k) (0 + 1)
        (⟨[⟨[(0, 5)], 2, 0⟩], [0], 0, 2, 1⟩ : ExtendibleHashTable Nat Nat) 0 7 =
        some t2 ∧
      ExtendibleHashTable.Find (fun k => k) t2 0 = some 7 :=
  ⟨by decide, insert_insert_find (fun k => k) _ _ 0 5 7 1 0
    (tableWF_create Nat Nat 2) (by decide)⟩

/-- The page-table operations, with fuel for the insertion loop. -/
inductive HashOp (K V : Type) where
  | ins (key : K) (v : V) (fuel : Nat)
  | rem (key : K)
  | fnd (key : K)
deriving Repr, DecidableEq

/-- One public hash-table operation; none models a non-terminating
insert. -/
def applyHashOp {K V : Type} [DecidableEq K] (hash : K → Nat)
    (t : ExtendibleHashTable K V) : HashOp K V → Option (ExtendibleHashTable K V)
  | .ins key v fuel => ExtendibleHashTable.InsertLoop hash fuel t key v
  | .rem key => some (ExtendibleHashTable.Remove hash t key).2
  | .fnd _ => some t

/-- Run a sequence of hash-table operations from a starting state. -/
def runHashOps {K V : Type} [DecidableEq K] (hash : K → Nat)
    (t : ExtendibleHashTable K V) :
    List (HashOp K V) → Option (ExtendibleHashTable K V)
  | [] => some t
  | op :: ops =>
    match applyHashOp hash t op with
    | none => none
    | some t' => runHashOps hash t' ops

/-- Every operation sequence preserves the invariants. -/
theorem tableWF_runHashOps {K V : Type} [DecidableEq K] (hash : K → Nat)
    (ops : List (HashOp K V)) :
    ∀ t t' : ExtendibleHashTable K V, TableWF t →
      runHashOps hash t ops = some t' → TableWF t' := by
  induction ops with
  | nil =>
    intro t t' hwf h
    rw [runHashOps] at h
    rw [Option.some_inj] at h
    rw [← h]
    exact hwf
  | cons op ops ih =>
    intro t t' hwf h
    rw [runHashOps] at h
    rcases hap : applyHashOp hash t op with _ | t1
    · rw [hap] at h
      exact absurd h (by simp)
    · rw [hap] at h
      refine ih t1 t' ?_ h
      cases op with
      | ins key v fuel => exact tableWF_insertLoop hash fuel t t1 key v hwf hap
      | rem key =>
        rw [applyHashOp, Option.some_inj] at hap
        rw [← hap]
        exact tableWF_remove hash t key hwf
      | fnd key =>
        rw [applyHashOp, Option.some_inj] at hap
        rw [← hap]
        exact hwf

/-- C7: in every table reachable from the initial table by insert,
remove and find, any two directory slots referencing the same bucket
are congruent modulo 2 to that bucket's local depth. -/
theorem hashTable_dir_congruence {K V : Type} [DecidableEq K] (hash : K → Nat)
    (bucket_size : Nat) (ops : List (HashOp K V)) (t : ExtendibleHashTable K V)
    (hrun : runHashOps hash (ExtendibleHashTable.create K V bucket_size) ops = some t) :
    ∀ i j, i < t.dir.length → j < t.dir.length → t.dir.getD i 0 = t.dir.getD j 0 →
      i % 2 ^ (t.buckets.getD (t.dir.getD i 0) defaultBucket).local_depth =
        j % 2 ^ (t.buckets.getD (t.dir.getD i 0) defaultBucket).local_depth :=
  (tableWF_runHashOps hash ops _ t (tableWF_create K V bucket_size) hrun).cong

/-- Witness for hashTable_dir_congruence on a concrete run that forces
a split with directory doubling. -/
theorem hashTable_dir_congruence_witness :
    runHashOps (fun k => k) (ExtendibleHashTable.create Nat Nat 1)
      [HashOp.ins 0 100 3, HashOp.ins 1 101 3, HashOp.rem 0, HashOp.fnd 1] =
      some ⟨[⟨[], 1, 1⟩, ⟨[(1, 101)], 1, 1⟩], [0, 1], 1, 1, 2⟩ ∧
    (∀ i j, i < ([0, 1] : List Nat).length → j < ([0, 1] : List Nat).length →
      ([0, 1] : List Nat).getD i 0 = ([0, 1] : List Nat).getD j 0 →
      i % 2 ^ (([⟨[], 1, 1⟩, ⟨[(1, 101)], 1, 1⟩] : List (Bucket Nat Nat)).getD
          (([0, 1] : List Nat).getD i 0) defaultBucket).local_depth =
        j % 2 ^ (([⟨[], 1, 1⟩, ⟨[(1, 101)], 1, 1⟩] : List (Bucket Nat Nat)).getD
          (([0, 1] : List Nat).getD i 0) defaultBucket).local_depth) :=
  ⟨by decide, hashTable_dir_congruence (fun k => k) 1
    [HashOp.ins 0 100 3, HashOp.ins 1 101 3, HashOp.rem 0, HashOp.fnd 1]
    ⟨[⟨[], 1, 1⟩, ⟨[(1, 101)], 1, 1⟩], [0, 1], 1, 1, 2⟩ (by decide)⟩

/-- INVALID_PAGE_ID of the source (common/config.h). -/
def INVALID_PAGE_ID : Int := -1

/-- A page frame: identifier, pin count, dirty flag and an abstracted
fixed-size byte buffer (one Nat stands for the whole buffer contents;
ResetMemory zeroes it). -/
structure Page where
  page_id : Int
  pin_count : Nat
  is_dirty : Bool
  data : Nat
deriving Repr, DecidableEq

/-- The value produced by the Page default constructor. -/
def defaultPage : Page := ⟨INVALID_PAGE_ID, 0, false, 0⟩

/-- Observable effects on the external disk manager. -/
inductive DiskEvent where
  | writePage (pid : Int)
  | readPage (pid : Int)
  | deallocPage (pid : Int)
deriving Repr, DecidableEq

/-- Association-list content of the external disk, updated by
WritePage. -/
def diskStore (disk : List (Int × Nat)) (pid : Int) (v : Nat) : List (Int × Nat) :=
  match disk with
  | [] => [(pid, v)]
  | p :: rest => if p.1 = pid then (pid, v) :: rest else p :: diskStore rest pid v

/-- ReadPage from the modelled disk (unwritten pages read as zero). -/
def diskLoad (disk : List (Int × Nat)) (pid : Int) : Nat :=
  match disk with
  | [] => 0
  | p :: rest => if p.1 = pid then p.2 else diskLoad rest pid

/-- State of BufferPoolManagerInstance: the frame array, the page
table (page id to frame index), the replacer, the free list and the
page-id allocator, plus the modelled external disk contents. -/
structure BufferPoolManager where
  pool_size : Nat
  pages : List Page
  page_table : ExtendibleHashTable Int Nat
  replacer : LRUKReplacer
  free_list : List Nat
  next_page_id : Int
  disk : List (Int × Nat)
deriving Repr, DecidableEq

/-- The BufferPoolManagerInstance constructor: default pages, fresh
page table and replacer, every frame on the free list. -/
def BufferPoolManager.create (pool_size replacer_k bucket_size : Nat) :
    BufferPoolManager :=
  { pool_size := pool_size,
    pages := List.replicate pool_size defaultPage,
    page_table := ExtendibleHashTable.create Int Nat bucket_size,
    replacer := ⟨[], 0, 0, pool_size, replacer_k, []⟩,
    free_list := List.range pool_size,
    next_page_id := 0,
    disk := [] }

/-- The frame-acquisition prelude written out identically at the top
of NewPgImp and FetchPgImp: pop the free-list head if any; otherwise
evict, write the victim back when dirty and erase its page id from the
page table.  none means no frame is available. -/
def BufferPoolManager.acquireFrame (hash : Int → Nat) (s : BufferPoolManager) :
    Option (Nat × BufferPoolManager × List DiskEvent) :=
  match s.free_list with
  | fid :: rest => some (fid, { s with free_list := rest }, [])
  | [] =>
    match s.replacer.Evict with
    | none => none
    | some (fid, rep') =>
      let victim := s.pages.getD fid defaultPage
      let pt1 := (ExtendibleHashTable.Remove hash s.page_table victim.page_id).2
      if victim.is_dirty then
        some (fid,
          { s with
            replacer := rep',
            pages := s.pages.set fid { victim with is_dirty := false },
            disk := diskStore s.disk victim.page_id victim.data,
            page_table := pt1 },
          [DiskEvent.writePage victim.page_id])
      else
        some (fid,
          { s with
            replacer := rep',
            page_table := pt1 },
          [])

/-- BufferPoolManagerInstance::NewPgImp.  Returns (allocated page id,
frame) on success, none in the first component when no frame is free
or evictable; the outer none models an assertion firing or a
non-terminating page-table insert. -/
def BufferPoolManager.NewPgImp (hash : Int → Nat) (fuel : Nat)
    (s : BufferPoolManager) :
    Option (Option (Int × Nat) × BufferPoolManager × List DiskEvent) :=
  match BufferPoolManager.acquireFrame hash s with
  | none => some (none, s, [])
  | some (frame_id, s1, ev) =>
    let page_id := s1.next_page_id
    let s2 := { s1 with next_page_id := s1.next_page_id + 1 }
    let page := s2.pages.getD frame_id defaultPage
    let newPage := { page with page_id := page_id, pin_count := 1, is_dirty := false }
    let s3 := { s2 with pages := s2.pages.set frame_id newPage }
    match ExtendibleHashTable.InsertLoop hash fuel s3.page_table page_id frame_id with
    | none => none
    | some pt' =>
      match (LRUKReplacer.RecordAccess s3.replacer frame_id) with
      | none => none
      | some rep1 =>
        match (LRUKReplacer.SetEvictable rep1 frame_id false) with
        | none => none
        | some rep2 =>
          some (some (page_id, frame_id),
            { s3 with page_table := pt', replacer := rep2 }, ev)

/-- BufferPoolManagerInstance::FetchPgImp.  Returns the frame holding
the page on success. -/
def BufferPoolManager.FetchPgImp (hash : Int → Nat) (fuel : Nat)
    (s : BufferPoolManager) (page_id : Int) :
    Option (Option Nat × BufferPoolManager × List DiskEvent) :=
  match ExtendibleHashTable.Find hash s.page_table page_id with
  | some frame_id =>
    let page := s.pages.getD frame_id defaultPage
    let pinned := { page with pin_count := page.pin_count + 1 }
    let s1 := { s with pages := s.pages.set frame_id pinned }
    match (LRUKReplacer.RecordAccess s1.replacer frame_id) with
    | none => none
    | some rep1 =>
      match (LRUKReplacer.SetEvictable rep1 frame_id false) with
      | none => none
      | some rep2 => some (some frame_id, { s1 with replacer := rep2 }, [])
  | none =>
    match BufferPoolManager.acquireFrame hash s with
    | none => some (none, s, [])
    | some (frame_id, s1, ev) =>
      let page := s1.pages.getD frame_id defaultPage
      let loaded := { page with
                      data := diskLoad s1.disk page_id,
                      page_id := page_id,
                      pin_count := 1,
                      is_dirty := false }
      let s2 := { s1 with pages := s1.pages.set frame_id loaded }
      match ExtendibleHashTable.InsertLoop hash fuel s2.page_table page_id frame_id with
      | none => none
      | some pt' =>
        match (LRUKReplacer.RecordAccess s2.replacer frame_id) with
        | none => none
        | some rep1 =>
          match (LRUKReplacer.SetEvictable rep1 frame_id false) with
          | none => none
          | some rep2 =>
            some (some frame_id, { s2 with page_table := pt', replacer := rep2 },
              ev ++ [DiskEvent.readPage page_id])

/-- BufferPoolManagerInstance::UnpinPgImp. -/
def BufferPoolManager.UnpinPgImp (hash : Int → Nat) (s : BufferPoolManager)
    (page_id : Int) (is_dirty : Bool) :
    Option (Bool × BufferPoolManager × List DiskEvent) :=
  match ExtendibleHashTable.Find hash s.page_table page_id with
  | none => some (false, s, [])
  | some frame_id =>
    let page := s.pages.getD frame_id defaultPage
    if page.pin_count = 0 then some (false, s, [])
    else
      let page1 := { page with
                     pin_count := page.pin_count - 1,
                     is_dirty := page.is_dirty || is_dirty }
      let s1 := { s with pages := s.pages.set frame_id page1 }
      if page1.pin_count = 0 then
        match (LRUKReplacer.SetEvictable s1.replacer frame_id true) with
        | none => none
        | some rep' => some (true, { s1 with replacer := rep' }, [])
      else some (true, s1, [])

/-- BufferPoolManagerInstance::FlushPgImp. -/
def BufferPoolManager.FlushPgImp (hash : Int → Nat) (s : BufferPoolManager)
    (page_id : Int) : Option (Bool × BufferPoolManager × List DiskEvent) :=
  if page_id = INVALID_PAGE_ID then some (false, s, [])
  else
    match ExtendibleHashTable.Find hash s.page_table page_id with
    | none => some (false, s, [])
    | some frame_id =>
      let page := s.pages.getD frame_id defaultPage
      some (true,
        { s with
          pages := s.pages.set frame_id { page with is_dirty := false },
          disk := diskStore s.disk page_id page.data },
        [DiskEvent.writePage page_id])

/-- One iteration of the flush-all loop over frame index i. -/
def flushAllStep (acc : BufferPoolManager × List DiskEvent) (i : Nat) :
    BufferPoolManager × List DiskEvent :=
  let s := acc.1
  let page := s.pages.getD i defaultPage
  if page.page_id ≠ INVALID_PAGE_ID ∧ page.is_dirty = true then
    ({ s with
       pages := s.pages.set i { page with is_dirty := false },
       disk := diskStore s.disk page.page_id page.data },
     acc.2 ++ [DiskEvent.writePage page.page_id])
  else acc

/-- BufferPoolManagerInstance::FlushAllPgsImp. -/
def BufferPoolManager.FlushAllPgsImp (s : BufferPoolManager) :
    BufferPoolManager × List DiskEvent :=
  (List.range s.pool_size).foldl flushAllStep (s, [])

/-- BufferPoolManagerInstance::DeletePgImp.  DeallocatePage has no
body in the sources; following the specification it releases the
on-disk identifier, which the model records as a deallocation event. -/
def BufferPoolManager.DeletePgImp (hash : Int → Nat) (s : BufferPoolManager)
    (page_id : Int) : Option (Bool × BufferPoolManager × List DiskEvent) :=
  match ExtendibleHashTable.Find hash s.page_table page_id with
  | none => some (true, s, [DiskEvent.deallocPage page_id])
  | some frame_id =>
    let page := s.pages.getD frame_id defaultPage
    if 0 < page.pin_count then some (false, s, [])
    else
      let s1 := if page.is_dirty then
          { s with disk := diskStore s.disk page_id page.data }
        else s
      let ev1 : List DiskEvent := if page.is_dirty then
          [DiskEvent.writePage page_id]
        else []
      let pt1 := (ExtendibleHashTable.Remove hash s1.page_table page_id).2
      let s2 := { s1 with page_table := pt1 }
      match (LRUKReplacer.Remove s2.replacer frame_id) with
      | none => none
      | some rep' =>
        some (true,
          { s2 with
            replacer := rep',
            pages := s2.pages.set frame_id defaultPage,
            free_list := s2.free_list ++ [frame_id] },
          ev1 ++ [DiskEvent.deallocPage page_id])

/-- The page update performed by a successful unpin: decremented pin
count, dirty flag ORed. -/
def unpinnedPage (p : Page) (is_dirty : Bool) : Page :=
  { p with pin_count := p.pin_count - 1, is_dirty := p.is_dirty || is_dirty }

/-- C4: unpin_page returns false and leaves the pool unchanged when
the page is not resident or its pin count is already zero; otherwise
it decrements the pin count, ORs is_dirty into the dirty flag (never
clearing it), marks the frame evictable in the replacer exactly when
the pin count reaches zero, and returns true. -/
theorem unpin_spec (hash : Int → Nat) (s : BufferPoolManager) (page_id : Int)
    (is_dirty : Bool) :
    (ExtendibleHashTable.Find hash s.page_table page_id = none →
      s.UnpinPgImp hash page_id is_dirty = some (false, s, [])) ∧
    (∀ frame_id, ExtendibleHashTable.Find hash s.page_table page_id = some frame_id →
      ((s.pages.getD frame_id defaultPage).pin_count = 0 →
        s.UnpinPgImp hash page_id is_dirty = some (false, s, [])) ∧
      (0 < (s.pages.getD frame_id defaultPage).pin_count →
        ((s.pages.getD frame_id defaultPage).pin_count - 1 ≠ 0 →
          s.UnpinPgImp hash page_id is_dirty = some (true,
            { s with pages := s.pages.set frame_id (unpinnedPage (s.pages.getD frame_id defaultPage) is_dirty) },
            [])) ∧
        ((s.pages.getD frame_id defaultPage).pin_count - 1 = 0 →
          ∀ rep', LRUKReplacer.SetEvictable s.replacer frame_id true = some rep' →
            s.UnpinPgImp hash page_id is_dirty = some (true,
              { s with
                pages := s.pages.set frame_id (unpinnedPage (s.pages.getD frame_id defaultPage) is_dirty),
                replacer := rep' },
              [])))) := by
  constructor
  · intro h
    simp only [BufferPoolManager.UnpinPgImp, h]
  · intro frame_id h
    refine ⟨?_, ?_⟩
    · intro hpin
      simp only [BufferPoolManager.UnpinPgImp, h, hpin, if_pos]
    · intro hpin
      constructor
      · intro hne
        simp only [BufferPoolManager.UnpinPgImp, h, unpinnedPage]
        rw [if_neg (by omega), if_neg (by simpa using hne)]
      · intro hz rep' hrep
        simp only [BufferPoolManager.UnpinPgImp, h, unpinnedPage]
        rw [if_neg (by omega), if_pos (by simpa using hz), hrep]

/-- C5: delete_page deallocates and returns true on a non-resident
page; returns false unchanged on a pinned resident page; otherwise
writes back when dirty, removes the page from the page table and the
replacer, resets the frame to the default page (sentinel id, zero pin,
clean, zeroed buffer), pushes the frame on the free list, deallocates
the on-disk id and returns true. -/
theorem delete_spec (hash : Int → Nat) (s : BufferPoolManager) (page_id : Int) :
    (ExtendibleHashTable.Find hash s.page_table page_id = none →
      s.DeletePgImp hash page_id = some (true, s, [DiskEvent.deallocPage page_id])) ∧
    (∀ frame_id, ExtendibleHashTable.Find hash s.page_table page_id = some frame_id →
      (0 < (s.pages.getD frame_id defaultPage).pin_count →
        s.DeletePgImp hash page_id = some (false, s, [])) ∧
      ((s.pages.getD frame_id defaultPage).pin_count = 0 →
        ∀ rep', LRUKReplacer.Remove s.replacer frame_id = some rep' →
          s.DeletePgImp hash page_id = some (true,
            { s with
              disk := if (s.pages.getD frame_id defaultPage).is_dirty then diskStore s.disk page_id (s.pages.getD frame_id defaultPage).data else s.disk,
              page_table := (ExtendibleHashTable.Remove hash s.page_table page_id).2,
              replacer := rep',
              pages := s.pages.set frame_id defaultPage,
              free_list := s.free_list ++ [frame_id] },
            (if (s.pages.getD frame_id defaultPage).is_dirty then [DiskEvent.writePage page_id] else []) ++
              [DiskEvent.deallocPage page_id]))) := by
  constructor
  · intro h
    simp only [BufferPoolManager.DeletePgImp, h]
  · intro frame_id h
    constructor
    · intro hpin
      simp only [BufferPoolManager.DeletePgImp, h]
      rw [if_pos hpin]
    · intro hpin rep' hrep
      simp only [BufferPoolManager.DeletePgImp, h]
      rw [if_neg (by omega)]
      by_cases hd : (s.pages.getD frame_id defaultPage).is_dirty
      · rw [if_pos hd, if_pos hd]
        simp only [hrep, hd, if_pos]
      · rw [if_neg hd, if_neg hd]
        simp only [hrep, hd]
        simp

/-- C3: frame acquisition in new_page and fetch_page.  The free-list
head is taken when available; otherwise the replacer chooses a victim,
the victim is written back exactly when dirty and its page id is
erased from the page table before the frame is reused; when the free
list is empty and nothing is evictable, new_page and fetch_page (on a
non-resident page) fail, returning the pool unchanged with no page
allocated and no disk traffic. -/
theorem acquire_frame_spec (hash : Int → Nat) (s : BufferPoolManager) :
    (∀ fid rest, s.free_list = fid :: rest →
      BufferPoolManager.acquireFrame hash s =
        some (fid, { s with free_list := rest }, [])) ∧
    (s.free_list = [] →
      (∀ fid rep', s.replacer.Evict = some (fid, rep') →
        ((s.pages.getD fid defaultPage).is_dirty = true →
          BufferPoolManager.acquireFrame hash s = some (fid,
            { s with
              replacer := rep',
              pages := s.pages.set fid { s.pages.getD fid defaultPage with is_dirty := false },
              disk := diskStore s.disk (s.pages.getD fid defaultPage).page_id (s.pages.getD fid defaultPage).data,
              page_table := (ExtendibleHashTable.Remove hash s.page_table (s.pages.getD fid defaultPage).page_id).2 },
            [DiskEvent.writePage (s.pages.getD fid defaultPage).page_id])) ∧
        ((s.pages.getD fid defaultPage).is_dirty = false →
          BufferPoolManager.acquireFrame hash s = some (fid,
            { s with
              replacer := rep',
              page_table := (ExtendibleHashTable.Remove hash s.page_table (s.pages.getD fid defaultPage).page_id).2 },
            []))) ∧
      (s.replacer.Evict = none →
        BufferPoolManager.acquireFrame hash s = none ∧
        (∀ fuel, s.NewPgImp hash fuel = some (none, s, [])) ∧
        (∀ fuel page_id,
          ExtendibleHashTable.Find hash s.page_table page_id = none →
          s.FetchPgImp hash fuel page_id = some (none, s, [])))) := by
  constructor
  · intro fid rest hfl
    simp only [BufferPoolManager.acquireFrame, hfl]
  · intro hfl
    constructor
    · intro fid rep' hev
      constructor
      · intro hd
        simp only [BufferPoolManager.acquireFrame, hfl, hev, hd, if_pos]
      · intro hd
        simp only [BufferPoolManager.acquireFrame, hfl, hev, hd]
        simp
    · intro hev
      have hacq : BufferPoolManager.acquireFrame hash s = none := by
        simp only [BufferPoolManager.acquireFrame, hfl, hev]
      refine ⟨hacq, ?_, ?_⟩
      · intro fuel
        simp only [BufferPoolManager.NewPgImp, hacq]
      · intro fuel page_id hfind
        simp only [BufferPoolManager.FetchPgImp, hfind, hacq]

/-- Characterization of the flush-all fold over the first n frames:
everything except pages and disk is untouched, a frame is dirty-cleared
exactly when it was valid and dirty, and the events are the write-backs
of the valid dirty frames in order. -/
theorem flushAll_foldl_spec (s : BufferPoolManager) (n : Nat) :
    ((List.range n).foldl flushAllStep (s, [])).1.pool_size = s.pool_size ∧
    ((List.range n).foldl flushAllStep (s, [])).1.replacer = s.replacer ∧
    ((List.range n).foldl flushAllStep (s, [])).1.free_list = s.free_list ∧
    ((List.range n).foldl flushAllStep (s, [])).1.pages.length = s.pages.length ∧
    (∀ j, ((List.range n).foldl flushAllStep (s, [])).1.pages.getD j defaultPage =
      (if j < n ∧ (s.pages.getD j defaultPage).page_id ≠ INVALID_PAGE_ID ∧
          (s.pages.getD j defaultPage).is_dirty = true then
        { s.pages.getD j defaultPage with is_dirty := false }
      else s.pages.getD j defaultPage)) ∧
    ((List.range n).foldl flushAllStep (s, [])).2 =
      ((List.range n).filter (fun i =>
        decide ((s.pages.getD i defaultPage).page_id ≠ INVALID_PAGE_ID ∧
          (s.pages.getD i defaultPage).is_dirty = true))).map
        (fun i => DiskEvent.writePage (s.pages.getD i defaultPage).page_id) := by
  induction n with
  | zero =>
    refine ⟨rfl, rfl, rfl, rfl, ?_, rfl⟩
    intro j
    rw [if_neg (by omega)]
    rfl
  | succ n ih =>
    obtain ⟨ih1, ih2, ih3, ih4, ih5, ih6⟩ := ih
    rw [List.range_succ, List.foldl_append, List.filter_append, List.map_append]
    simp only [List.foldl_cons, List.foldl_nil]
    have hAn : ((List.range n).foldl flushAllStep (s, [])).1.pages.getD n defaultPage =
        s.pages.getD n defaultPage := by
      rw [ih5 n, if_neg (by omega)]
    by_cases hc : (s.pages.getD n defaultPage).page_id ≠ INVALID_PAGE_ID ∧
        (s.pages.getD n defaultPage).is_dirty = true
    · have hlen : n < s.pages.length := by
        by_contra hge
        rw [List.getD_eq_default _ _ (by omega)] at hc
        exact hc.1 rfl
      rw [flushAllStep, hAn, if_pos hc]
      refine ⟨ih1, ih2, ih3, by simpa using ih4, ?_, ?_⟩
      · intro j
        by_cases hj : j = n
        · subst hj
          rw [getD_set_self _ _ _ _ (by omega), if_pos (by exact ⟨by omega, hc⟩)]
        · rw [getD_set_of_ne _ _ _ _ _ (fun hx => hj hx.symm), ih5 j]
          by_cases hjn : j < n
          · by_cases hcj : (s.pages.getD j defaultPage).page_id ≠ INVALID_PAGE_ID ∧
                (s.pages.getD j defaultPage).is_dirty = true
            · rw [if_pos ⟨hjn, hcj⟩, if_pos ⟨by omega, hcj⟩]
            · rw [if_neg (by tauto), if_neg (by tauto)]
          · rw [if_neg (by omega), if_neg (by omega)]
      · rw [ih6]
        have : List.filter (fun i =>
            decide ((s.pages.getD i defaultPage).page_id ≠ INVALID_PAGE_ID ∧
              (s.pages.getD i defaultPage).is_dirty = true)) [n] = [n] := by
          simp only [List.filter_cons, List.filter_nil]
          rw [if_pos (by simpa using hc)]
        rw [this]
        simp
    · rw [flushAllStep, hAn, if_neg hc]
      refine ⟨ih1, ih2, ih3, ih4, ?_, ?_⟩
      · intro j
        rw [ih5 j]
        by_cases hj : j = n
        · subst hj
          rw [if_neg (by omega), if_neg (by tauto)]
        · by_cases hjn : j < n
          · by_cases hcj : (s.pages.getD j defaultPage).page_id ≠ INVALID_PAGE_ID ∧
                (s.pages.getD j defaultPage).is_dirty = true
            · rw [if_pos ⟨hjn, hcj⟩, if_pos ⟨by omega, hcj⟩]
            · rw [if_neg (by tauto), if_neg (by tauto)]
          · rw [if_neg (by omega), if_neg (by omega)]
      · rw [ih6]
        have : List.filter (fun i =>
            decide ((s.pages.getD i defaultPage).page_id ≠ INVALID_PAGE_ID ∧
              (s.pages.getD i defaultPage).is_dirty = true)) [n] = [] := by
          simp only [List.filter_cons, List.filter_nil]
          rw [if_neg (by simpa using hc)]
        rw [this]
        simp

/-- When no frame is valid and dirty the flush-all fold does nothing. -/
theorem flushAll_foldl_nil (s0 : BufferPoolManager) (n : Nat)
    (h : ∀ i, i < n → ¬((s0.pages.getD i defaultPage).page_id ≠ INVALID_PAGE_ID ∧
      (s0.pages.getD i defaultPage).is_dirty = true)) :
    (List.range n).foldl flushAllStep (s0, []) = (s0, []) := by
  induction n with
  | zero => simp
  | succ n ih =>
    rw [List.range_succ, List.foldl_append, ih (fun i hi => h i (by omega))]
    simp only [List.foldl_cons, List.foldl_nil]
    rw [flushAllStep, if_neg (h n (by omega))]

/-- C9: flush_all_pages writes back exactly the frames with a valid
page id and a set dirty flag, clearing each dirty flag, so an
immediately repeated call performs zero disk writes. -/
theorem flushAll_spec (s : BufferPoolManager) :
    s.FlushAllPgsImp.2 =
      ((List.range s.pool_size).filter (fun i =>
        decide ((s.pages.getD i defaultPage).page_id ≠ INVALID_PAGE_ID ∧
          (s.pages.getD i defaultPage).is_dirty = true))).map
        (fun i => DiskEvent.writePage (s.pages.getD i defaultPage).page_id) ∧
    (∀ j, s.FlushAllPgsImp.1.pages.getD j defaultPage =
      (if j < s.pool_size ∧ (s.pages.getD j defaultPage).page_id ≠ INVALID_PAGE_ID ∧
          (s.pages.getD j defaultPage).is_dirty = true then
        { s.pages.getD j defaultPage with is_dirty := false }
      else s.pages.getD j defaultPage)) ∧
    s.FlushAllPgsImp.1.FlushAllPgsImp.2 = [] := by
  obtain ⟨h1, h2, h3, h4, h5, h6⟩ := flushAll_foldl_spec s s.pool_size
  refine ⟨h6, h5, ?_⟩
  rw [BufferPoolManager.FlushAllPgsImp, BufferPoolManager.FlushAllPgsImp, h1]
  rw [flushAll_foldl_nil]
  intro i hi
  rw [h5 i]
  by_cases hci : (s.pages.getD i defaultPage).page_id ≠ INVALID_PAGE_ID ∧
      (s.pages.getD i defaultPage).is_dirty = true
  · rw [if_pos ⟨hi, hci⟩]
    simp
  · rw [if_neg (by tauto)]
    exact hci

/-- The public buffer-pool operations, with fuel for the page-table
insertions performed by new_page and fetch_page. -/
inductive BPMOp where
  | newPg (fuel : Nat)
  | fetchPg (page_id : Int) (fuel : Nat)
  | unpinPg (page_id : Int) (is_dirty : Bool)
  | flushPg (page_id : Int)
  | flushAll
  | deletePg (page_id : Int)
deriving Repr, DecidableEq

/-- One public buffer-pool operation, discarding the returned value
and events. -/
def applyBPMOp (hash : Int → Nat) (s : BufferPoolManager) :
    BPMOp → Option BufferPoolManager
  | .newPg fuel => (s.NewPgImp hash fuel).map (fun r => r.2.1)
  | .fetchPg page_id fuel => (s.FetchPgImp hash fuel page_id).map (fun r => r.2.1)
  | .unpinPg page_id is_dirty => (s.UnpinPgImp hash page_id is_dirty).map (fun r => r.2.1)
  | .flushPg page_id => (s.FlushPgImp hash page_id).map (fun r => r.2.1)
  | .flushAll => some s.FlushAllPgsImp.1
  | .deletePg page_id => (s.DeletePgImp hash page_id).map (fun r => r.2.1)

/-- Run a sequence of buffer-pool operations. -/
def runBPM (hash : Int → Nat) (s : BufferPoolManager) :
    List BPMOp → Option BufferPoolManager
  | [] => some s
  | op :: ops =>
    match applyBPMOp hash s op with
    | none => none
    | some s' => runBPM hash s' ops

/-- Whether the replacer currently holds the frame as evictable: a
record must exist and its flag must be set. -/
def evictableInReplacer (r : LRUKReplacer) (fid : Nat) : Bool :=
  match lookupFrame r.frame_map fid with
  | some fi => fi.evictable
  | none => false

/-- Counterexample to C8 as stated: after new_page, unpin, delete_page
on a one-frame pool, frame 0 was introduced via record_access and has
pin count zero, yet the replacer does not hold it as evictable (its
record was erased by delete_page), so the claimed biconditional fails
for a frame "ever introduced via record_access". -/
theorem pin_evictable_introduced_counterexample :
    ¬ (∀ s, runBPM (fun i => i.toNat) (BufferPoolManager.create 1 1 2)
        [BPMOp.newPg 2, BPMOp.unpinPg 0 false, BPMOp.deletePg 0] = some s →
      ∀ fid, fid ∈ s.replacer.introduced →
        (((s.pages.getD fid defaultPage).pin_count = 0) ↔
          evictableInReplacer s.replacer fid = true)) := by
  decide

/-- The key list of a replacer frame map. -/
def frameKeys (m : List (Nat × FrameInfo)) : List Nat := m.map (fun p => p.1)

/-- A lookup misses exactly when no entry carries the key. -/
theorem lookupFrame_eq_none_iff (m : List (Nat × FrameInfo)) (fid : Nat) :
    lookupFrame m fid = none ↔ ∀ p ∈ m, p.1 ≠ fid := by
  induction m with
  | nil => simp [lookupFrame]
  | cons p rest ih =>
    by_cases hp : p.1 = fid
    · simp [lookupFrame, hp]
    · simp [lookupFrame, hp, ih]

/-- updateFrame leaves other keys alone. -/
theorem lookupFrame_updateFrame_ne (m : List (Nat × FrameInfo)) (fid : Nat)
    (fi : FrameInfo) (x : Nat) (h : x ≠ fid) :
    lookupFrame (updateFrame m fid fi) x = lookupFrame m x := by
  have hfx : ¬ fid = x := fun hc => h hc.symm
  induction m with
  | nil => simp [updateFrame, lookupFrame, hfx]
  | cons p rest ih =>
    by_cases hp : p.1 = fid
    · rw [updateFrame, if_pos hp, lookupFrame, if_neg hfx, lookupFrame,
        if_neg (by rw [hp]; exact hfx)]
    · rw [updateFrame, if_neg hp]
      by_cases hx : p.1 = x
      · rw [lookupFrame, if_pos hx, lookupFrame, if_pos hx]
      · rw [lookupFrame, if_neg hx, lookupFrame, if_neg hx, ih]

/-- Entries of updateFrame come from the old map or are the written
pair. -/
theorem mem_updateFrame (m : List (Nat × FrameInfo)) (fid : Nat) (fi : FrameInfo)
    (q : Nat × FrameInfo) (h : q ∈ updateFrame m fid fi) : q ∈ m ∨ q = (fid, fi) := by
  induction m with
  | nil => simpa [updateFrame] using h
  | cons p rest ih =>
    by_cases hp : p.1 = fid
    · rw [updateFrame, if_pos hp] at h
      rcases List.mem_cons.1 h with h | h
      · exact Or.inr h
      · exact Or.inl (List.mem_cons_of_mem _ h)
    · rw [updateFrame, if_neg hp] at h
      rcases List.mem_cons.1 h with h | h
      · exact Or.inl (by rw [h]; exact List.mem_cons_self _ _)
      · rcases ih h with h | h
        · exact Or.inl (List.mem_cons_of_mem _ h)
        · exact Or.inr h

/-- The key list after updateFrame: unchanged on overwrite, the key
appended on creation. -/
theorem updateFrame_keys (m : List (Nat × FrameInfo)) (fid : Nat) (fi : FrameInfo) :
    frameKeys (updateFrame m fid fi) =
      if (lookupFrame m fid).isSome then frameKeys m else frameKeys m ++ [fid] := by
  induction m with
  | nil => simp [updateFrame, frameKeys, lookupFrame]
  | cons p rest ih =>
    by_cases hp : p.1 = fid
    · rw [updateFrame, if_pos hp, lookupFrame, if_pos hp]
      simp [frameKeys, hp]
    · rw [updateFrame, if_neg hp, lookupFrame, if_neg hp]
      by_cases hs : (lookupFrame rest fid).isSome
      · rw [if_pos hs]
        rw [if_pos hs] at ih
        simp only [frameKeys, List.map_cons] at ih ⊢
        rw [ih]
      · rw [if_neg hs]
        rw [if_neg hs] at ih
        simp only [frameKeys, List.map_cons] at ih ⊢
        rw [ih]
        simp

/-- updateFrame preserves key distinctness. -/
theorem nodup_updateFrame (m : List (Nat × FrameInfo)) (fid : Nat) (fi : FrameInfo)
    (h : (frameKeys m).Nodup) : (frameKeys (updateFrame m fid fi)).Nodup := by
  rw [updateFrame_keys]
  split_ifs with hs
  · exact h
  · have habs := (lookupFrame_eq_none_iff m fid).1 (Option.not_isSome_iff_eq_none.1 hs)
    rw [List.nodup_append]
    refine ⟨h, List.nodup_singleton _, ?_⟩
    intro a ha hb
    simp only [List.mem_singleton] at hb
    subst hb
    simp only [frameKeys, List.mem_map] at ha
    obtain ⟨p, hp, hpa⟩ := ha
    exact habs p hp hpa

/-- eraseFrame yields a sublist. -/
theorem eraseFrame_sublist (m : List (Nat × FrameInfo)) (fid : Nat) :
    List.Sublist (eraseFrame m fid) m := by
  induction m with
  | nil => simp [eraseFrame]
  | cons p rest ih =>
    by_cases hp : p.1 = fid
    · rw [eraseFrame, if_pos hp]
      exact List.sublist_cons_self p rest
    · rw [eraseFrame, if_neg hp]
      exact List.Sublist.cons₂ p ih

/-- eraseFrame leaves other keys alone. -/
theorem lookupFrame_eraseFrame_ne (m : List (Nat × FrameInfo)) (fid x : Nat)
    (h : x ≠ fid) : lookupFrame (eraseFrame m fid) x = lookupFrame m x := by
  induction m with
  | nil => simp [eraseFrame]
  | cons p rest ih =>
    by_cases hp : p.1 = fid
    · rw [eraseFrame, if_pos hp, lookupFrame, if_neg (by rw [hp]; exact fun hc => h hc.symm)]
    · by_cases hx : p.1 = x
      · rw [eraseFrame, if_neg hp, lookupFrame, if_pos hx, lookupFrame, if_pos hx]
      · rw [eraseFrame, if_neg hp, lookupFrame, if_neg hx, lookupFrame, if_neg hx, ih]

/-- With distinct keys, the erased key is gone. -/
theorem lookupFrame_eraseFrame_self (m : List (Nat × FrameInfo)) (fid : Nat)
    (h : (frameKeys m).Nodup) : lookupFrame (eraseFrame m fid) fid = none := by
  induction m with
  | nil => simp [eraseFrame, lookupFrame]
  | cons p rest ih =>
    simp only [frameKeys, List.map_cons, List.nodup_cons] at h
    by_cases hp : p.1 = fid
    · rw [eraseFrame, if_pos hp]
      rw [lookupFrame_eq_none_iff]
      intro q hq hqf
      apply h.1
      rw [hp, ← hqf]
      exact List.mem_map_of_mem _ hq
    · rw [eraseFrame, if_neg hp, lookupFrame, if_neg hp]
      exact ih h.2

/-- Shape of a successful RecordAccess: in-range frame id and an
in-place update whose record keeps the previous evictable flag (false
for a fresh record). -/
theorem recordAccess_shape (r : LRUKReplacer) (fid : Nat) (rep' : LRUKReplacer)
    (h : r.RecordAccess fid = some rep') :
    fid < r.replacer_size ∧ rep'.replacer_size = r.replacer_size ∧
    ∃ fi1 : FrameInfo,
      fi1.evictable = ((lookupFrame r.frame_map fid).getD FrameInfo.default0).evictable ∧
      rep'.frame_map = updateFrame r.frame_map fid fi1 := by
  rw [LRUKReplacer.RecordAccess] at h
  split_ifs at h with hr
  injection h with h2
  refine ⟨hr, by rw [← h2], ?_⟩
  refine ⟨_, ?_, by rw [← h2]⟩
  try rfl

/-- Shape of a successful SetEvictable: in-range frame id; either the
record's flag flips in place, or the map is untouched and any record
already carried the flag. -/
theorem setEvictable_shape (r : LRUKReplacer) (fid : Nat) (flag : Bool)
    (rep' : LRUKReplacer) (h : r.SetEvictable fid flag = some rep') :
    fid < r.replacer_size ∧ rep'.replacer_size = r.replacer_size ∧
    ((∃ fi, lookupFrame r.frame_map fid = some fi ∧ ¬ fi.evictable = flag ∧
        rep'.frame_map = updateFrame r.frame_map fid { fi with evictable := flag }) ∨
     (rep'.frame_map = r.frame_map ∧
       ∀ fi, lookupFrame r.frame_map fid = some fi → fi.evictable = flag)) := by
  rw [LRUKReplacer.SetEvictable] at h
  by_cases hr : fid < r.replacer_size
  · rw [if_pos hr] at h
    rcases hl : lookupFrame r.frame_map fid with _ | fi
    · rw [hl] at h
      have h2 : r = rep' := Option.some_inj.1 h
      refine ⟨hr, by rw [← h2], Or.inr ⟨by rw [← h2], ?_⟩⟩
      intro fi hfi
      exact absurd hfi (by simp)
    · rw [hl] at h
      have h' : (if fi.evictable = flag then some r
          else some { r with
            curr_size := if flag then r.curr_size + 1 else r.curr_size - 1,
            frame_map := updateFrame r.frame_map fid { fi with evictable := flag } }) =
          some rep' := h
      by_cases he : fi.evictable = flag
      · rw [if_pos he] at h'
        have h2 : r = rep' := Option.some_inj.1 h'
        refine ⟨hr, by rw [← h2], Or.inr ⟨by rw [← h2], ?_⟩⟩
        intro fi' hfi'
        injection hfi' with h3
        rw [← h3]
        exact he
      · rw [if_neg he] at h'
        have h2 := Option.some_inj.1 h'
        exact ⟨hr, by rw [← h2], Or.inl ⟨fi, rfl, he, by rw [← h2]⟩⟩
  · rw [if_neg hr] at h
    exact absurd h (by simp)

/-- Shape of a successful Evict: the victim's record is erased and the
capacity field is untouched. -/
theorem evict_shape (r : LRUKReplacer) (v : Nat) (rep' : LRUKReplacer)
    (h : r.Evict = some (v, rep')) :
    rep'.replacer_size = r.replacer_size ∧
    rep'.frame_map = eraseFrame r.frame_map v := by
  rw [LRUKReplacer.Evict] at h
  by_cases hz : r.curr_size = 0
  · rw [if_pos hz] at h
    exact Option.noConfusion h
  · rw [if_neg hz] at h
    rcases hm : (r.frame_map.foldl (evictStep r) ⟨none, 0, USIZE_MAX⟩).victim with _ | w
    · rw [hm] at h
      exact Option.noConfusion h
    · rw [hm] at h
      have h' : (some (w, { r with
          frame_map := eraseFrame r.frame_map w,
          curr_size := r.curr_size - 1 }) : Option (Nat × LRUKReplacer)) =
          some (v, rep') := h
      simp only [Option.some_inj, Prod.mk.injEq] at h'
      obtain ⟨h3, h4⟩ := h'
      rw [← h4, ← h3]
      exact ⟨rfl, rfl⟩

/-- Shape of a successful replacer Remove: in-range frame id; either a
silent no-op or the record is erased. -/
theorem replacerRemove_shape (r : LRUKReplacer) (fid : Nat) (rep' : LRUKReplacer)
    (h : r.Remove fid = some rep') :
    fid < r.replacer_size ∧ rep'.replacer_size = r.replacer_size ∧
    (rep'.frame_map = r.frame_map ∨ rep'.frame_map = eraseFrame r.frame_map fid) := by
  rw [LRUKReplacer.Remove] at h
  by_cases hr : fid < r.replacer_size
  · rw [if_pos hr] at h
    rcases hl : lookupFrame r.frame_map fid with _ | fi
    · rw [hl] at h
      have h2 : r = rep' := Option.some_inj.1 h
      exact ⟨hr, by rw [← h2], Or.inl (by rw [← h2])⟩
    · rw [hl] at h
      have h' : (if fi.evictable = true then
          some { r with
            curr_size := r.curr_size - 1,
            frame_map := eraseFrame r.frame_map fid }
        else none) = some rep' := h
      by_cases he : fi.evictable = true
      · rw [if_pos he] at h'
        have h2 := Option.some_inj.1 h'
        exact ⟨hr, by rw [← h2], Or.inr (by rw [← h2])⟩
      · rw [if_neg he] at h'
        exact Option.noConfusion h'
  · rw [if_neg hr] at h
    exact Option.noConfusion h

/-- Shape of a successful frame acquisition: pool metadata and pin
counts untouched, replacer at most loses the victim's record, free
list only shrinks. -/
theorem acquireFrame_shape (hash : Int → Nat) (s : BufferPoolManager) (fid : Nat)
    (s1 : BufferPoolManager) (ev : List DiskEvent)
    (h : BufferPoolManager.acquireFrame hash s = some (fid, s1, ev)) :
    s1.pool_size = s.pool_size ∧
    s1.replacer.replacer_size = s.replacer.replacer_size ∧
    s1.pages.length = s.pages.length ∧
    (∀ j, (s1.pages.getD j defaultPage).pin_count =
      (s.pages.getD j defaultPage).pin_count) ∧
    (s1.replacer.frame_map = s.replacer.frame_map ∨
      s1.replacer.frame_map = eraseFrame s.replacer.frame_map fid) ∧
    (∀ f, f ∈ s1.free_list → f ∈ s.free_list) := by
  rcases hfl : s.free_list with _ | ⟨f0, rest⟩
  · simp only [BufferPoolManager.acquireFrame, hfl] at h
    rcases hev : s.replacer.Evict with _ | ⟨v, rep'⟩
    · rw [hev] at h
      exact Option.noConfusion h
    · simp only [hev] at h
      obtain ⟨hsz, hmap⟩ := evict_shape s.replacer v rep' hev
      split_ifs at h with hd
      · simp only [Option.some_inj, Prod.mk.injEq] at h
        obtain ⟨hfid, hs1, -⟩ := h
        rw [← hs1]
        refine ⟨rfl, hsz, by simp, ?_, Or.inr (by rw [hmap, hfid]), ?_⟩
        · intro j
          by_cases hj : j = v
          · subst hj
            by_cases hvl : j < s.pages.length
            · rw [getD_set_self _ _ _ _ hvl]
            · rw [List.getD_eq_default _ _ (by simp; omega),
                List.getD_eq_default _ _ (by omega)]
          · rw [getD_set_of_ne _ _ _ _ _ (fun hc => hj hc.symm)]
        · intro f hf
          simp at hf
      · simp only [Option.some_inj, Prod.mk.injEq] at h
        obtain ⟨hfid, hs1, -⟩ := h
        rw [← hs1]
        refine ⟨rfl, hsz, rfl, fun j => rfl, Or.inr (by rw [hmap, hfid]), ?_⟩
        intro f hf
        simp at hf
  · simp only [BufferPoolManager.acquireFrame, hfl] at h
    simp only [Option.some_inj, Prod.mk.injEq] at h
    obtain ⟨-, hs1, -⟩ := h
    rw [← hs1]
    exact ⟨rfl, rfl, rfl, fun j => rfl, Or.inl rfl,
      fun f hf => List.mem_cons_of_mem _ hf⟩

/-- The inductive invariant of the buffer pool: the amended C8
biconditional for every frame the replacer currently tracks, together
with the bookkeeping facts needed to carry it through every
operation. -/
structure BPMInv (s : BufferPoolManager) : Prop where
  pages_len : s.pages.length = s.pool_size
  rep_size : s.replacer.replacer_size = s.pool_size
  keys_nodup : (frameKeys s.replacer.frame_map).Nodup
  pin_evict : ∀ fid fi, lookupFrame s.replacer.frame_map fid = some fi →
    (((s.pages.getD fid defaultPage).pin_count = 0) ↔ fi.evictable = true)

/-- eraseFrame keeps keys distinct. -/
theorem nodup_eraseFrame (m : List (Nat × FrameInfo)) (fid : Nat)
    (h : (frameKeys m).Nodup) : (frameKeys (eraseFrame m fid)).Nodup :=
  h.sublist ((eraseFrame_sublist m fid).map _)

/-- The invariant holds for a freshly constructed pool. -/
theorem bpmInv_create (pool_size replacer_k bucket_size : Nat) :
    BPMInv (BufferPoolManager.create pool_size replacer_k bucket_size) := by
  refine ⟨by simp [BufferPoolManager.create], rfl, by simp [BufferPoolManager.create, frameKeys], ?_⟩
  intro fid fi hx
  simp [BufferPoolManager.create, lookupFrame] at hx

/-- The RecordAccess plus SetEvictable-false tail shared by NewPgImp
and FetchPgImp preserves the invariant when the frame ends up with a
nonzero pin count. -/
theorem bpmInv_pin_tail (sb : BufferPoolManager) (fid : Nat)
    (rep1 rep2 : LRUKReplacer) (pages' : List Page) (s' : BufferPoolManager)
    (hinvb : BPMInv sb)
    (hra : sb.replacer.RecordAccess fid = some rep1)
    (hse : rep1.SetEvictable fid false = some rep2)
    (hplen : pages'.length = sb.pages.length)
    (hpin_ne : ∀ j, ¬ j = fid →
      (pages'.getD j defaultPage).pin_count = (sb.pages.getD j defaultPage).pin_count)
    (hpin_fid : ¬ (pages'.getD fid defaultPage).pin_count = 0)
    (hpag : s'.pages = pages') (hrep : s'.replacer = rep2)
    (hpool : s'.pool_size = sb.pool_size) : BPMInv s' := by
  obtain ⟨hfidlt, hrs1, fi1, hfi1e, hmap1⟩ := recordAccess_shape _ _ _ hra
  obtain ⟨hfidlt2, hrs2, hcase⟩ := setEvictable_shape _ _ _ _ hse
  refine ⟨?_, ?_, ?_, ?_⟩
  · rw [hpag, hplen, hpool, hinvb.pages_len]
  · rw [hrep, hrs2, hrs1, hpool, hinvb.rep_size]
  · rw [hrep]
    rcases hcase with ⟨fi', hfi', hne, hmap2⟩ | ⟨hmap2, hall⟩
    · rw [hmap2, hmap1]
      exact nodup_updateFrame _ _ _ (nodup_updateFrame _ _ _ hinvb.keys_nodup)
    · rw [hmap2, hmap1]
      exact nodup_updateFrame _ _ _ hinvb.keys_nodup
  · intro x fi hx
    rw [hrep] at hx
    by_cases hxf : x = fid
    · subst hxf
      have hev : fi.evictable = false := by
        rcases hcase with ⟨fi', hfi', hne, hmap2⟩ | ⟨hmap2, hall⟩
        · rw [hmap2, lookupFrame_updateFrame_self] at hx
          injection hx with h3
          rw [← h3]
        · rw [hmap2, hmap1, lookupFrame_updateFrame_self] at hx
          injection hx with h3
          have h4 := hall fi1 (by rw [hmap1]; exact lookupFrame_updateFrame_self _ _ _)
          rw [← h3]
          exact h4
      rw [hpag]
      constructor
      · intro hc
        exact absurd hc hpin_fid
      · intro hc
        rw [hev] at hc
        exact absurd hc (by simp)
    · have hx' : lookupFrame sb.replacer.frame_map x = some fi := by
        rcases hcase with ⟨fi', hfi', hne, hmap2⟩ | ⟨hmap2, hall⟩
        · rw [hmap2, lookupFrame_updateFrame_ne _ _ _ _ hxf, hmap1,
            lookupFrame_updateFrame_ne _ _ _ _ hxf] at hx
          exact hx
        · rw [hmap2, hmap1, lookupFrame_updateFrame_ne _ _ _ _ hxf] at hx
          exact hx
      rw [hpag]
      rw [show (pages'.getD x defaultPage).pin_count =
        (sb.pages.getD x defaultPage).pin_count from hpin_ne x hxf]
      exact hinvb.pin_evict x fi hx'

/-- Frame acquisition preserves the invariant. -/
theorem bpmInv_acquire (hash : Int → Nat) (s : BufferPoolManager) (fid : Nat)
    (s1 : BufferPoolManager) (ev1 : List DiskEvent) (hinv : BPMInv s)
    (hacq : BufferPoolManager.acquireFrame hash s = some (fid, s1, ev1)) :
    BPMInv s1 := by
  obtain ⟨hps, hrs, hpl, hpin, hmapc, -⟩ := acquireFrame_shape hash s fid s1 ev1 hacq
  refine ⟨by rw [hpl, hps, hinv.pages_len], by rw [hrs, hps, hinv.rep_size], ?_, ?_⟩
  · rcases hmapc with hm | hm
    · rw [hm]
      exact hinv.keys_nodup
    · rw [hm]
      exact nodup_eraseFrame _ _ hinv.keys_nodup
  · intro x fi hx
    rw [hpin x]
    apply hinv.pin_evict x fi
    rcases hmapc with hm | hm
    · rw [hm] at hx
      exact hx
    · rw [hm] at hx
      by_cases hxf : x = fid
      · subst hxf
        rw [lookupFrame_eraseFrame_self _ _ hinv.keys_nodup] at hx
        exact Option.noConfusion hx
      · rw [lookupFrame_eraseFrame_ne _ _ _ hxf] at hx
        exact hx

/-- new_page preserves the invariant. -/
theorem bpmInv_newPg (hash : Int → Nat) (fuel : Nat) (s : BufferPoolManager)
    (res : Option (Int × Nat)) (s' : BufferPoolManager) (ev : List DiskEvent)
    (hinv : BPMInv s) (h : s.NewPgImp hash fuel = some (res, s', ev)) : BPMInv s' := by
  rw [BufferPoolManager.NewPgImp] at h
  rcases hacq : BufferPoolManager.acquireFrame hash s with _ | ⟨fid, s1, ev1⟩
  · rw [hacq] at h
    have h' : (some (none, s, []) :
        Option (Option (Int × Nat) × BufferPoolManager × List DiskEvent)) =
        some (res, s', ev) := h
    simp only [Option.some_inj, Prod.mk.injEq] at h'
    obtain ⟨-, h2, -⟩ := h'
    rw [← h2]
    exact hinv
  · simp only [hacq] at h
    have hinv1 := bpmInv_acquire hash s fid s1 ev1 hinv hacq
    split at h
    · exact Option.noConfusion h
    · split at h
      · exact Option.noConfusion h
      · split at h
        · exact Option.noConfusion h
        · rename_i o1 rep1 hra o2 rep2 hse
          simp only [Option.some_inj, Prod.mk.injEq] at h
          obtain ⟨-, h2, -⟩ := h
          have hfs : fid < s1.pages.length := by
            have h3 := (recordAccess_shape _ _ _ hra).1
            rw [hinv1.rep_size] at h3
            rw [hinv1.pages_len]
            exact h3
          refine bpmInv_pin_tail s1 fid rep1 rep2 _ s' hinv1 hra hse ?_ ?_ ?_
            (by rw [← h2]) (by rw [← h2]) (by rw [← h2])
          · simp
          · intro j hj
            rw [getD_set_of_ne _ _ _ _ _ (fun hc => hj hc.symm)]
          · rw [getD_set_self _ _ _ _ hfs]
            exact Nat.one_ne_zero

/-- fetch_page preserves the invariant. -/
theorem bpmInv_fetchPg (hash : Int → Nat) (fuel : Nat) (s : BufferPoolManager)
    (page_id : Int) (res : Option Nat) (s' : BufferPoolManager) (ev : List DiskEvent)
    (hinv : BPMInv s) (h : s.FetchPgImp hash fuel page_id = some (res, s', ev)) :
    BPMInv s' := by
  rw [BufferPoolManager.FetchPgImp] at h
  rcases hf : ExtendibleHashTable.Find hash s.page_table page_id with _ | fid
  · rw [hf] at h
    rcases hacq : BufferPoolManager.acquireFrame hash s with _ | ⟨fid, s1, ev1⟩
    · rw [hacq] at h
      have h' : (some (none, s, []) :
          Option (Option Nat × BufferPoolManager × List DiskEvent)) =
          some (res, s', ev) := h
      simp only [Option.some_inj, Prod.mk.injEq] at h'
      obtain ⟨-, h2, -⟩ := h'
      rw [← h2]
      exact hinv
    · simp only [hacq] at h
      have hinv1 := bpmInv_acquire hash s fid s1 ev1 hinv hacq
      split at h
      · exact Option.noConfusion h
      · split at h
        · exact Option.noConfusion h
        · split at h
          · exact Option.noConfusion h
          · rename_i o1 rep1 hra o2 rep2 hse
            simp only [Option.some_inj, Prod.mk.injEq] at h
            obtain ⟨-, h2, -⟩ := h
            have hfs : fid < s1.pages.length := by
              have h3 := (recordAccess_shape _ _ _ hra).1
              rw [hinv1.rep_size] at h3
              rw [hinv1.pages_len]
              exact h3
            refine bpmInv_pin_tail s1 fid rep1 rep2 _ s' hinv1 hra hse ?_ ?_ ?_
              (by rw [← h2]) (by rw [← h2]) (by rw [← h2])
            · simp
            · intro j hj
              rw [getD_set_of_ne _ _ _ _ _ (fun hc => hj hc.symm)]
            · rw [getD_set_self _ _ _ _ hfs]
              exact Nat.one_ne_zero
  · simp only [hf] at h
    split at h
    · exact Option.noConfusion h
    · split at h
      · exact Option.noConfusion h
      · rename_i o1 rep1 hra o2 rep2 hse
        simp only [Option.some_inj, Prod.mk.injEq] at h
        obtain ⟨-, h2, -⟩ := h
        have hfs : fid < s.pages.length := by
          have h3 := (recordAccess_shape _ _ _ hra).1
          rw [hinv.rep_size] at h3
          rw [hinv.pages_len]
          exact h3
        refine bpmInv_pin_tail s fid rep1 rep2 _ s' hinv hra hse ?_ ?_ ?_
          (by rw [← h2]) (by rw [← h2]) (by rw [← h2])
        · simp
        · intro j hj
          rw [getD_set_of_ne _ _ _ _ _ (fun hc => hj hc.symm)]
        · rw [getD_set_self _ _ _ _ hfs]
          exact Nat.succ_ne_zero _

/-- unpin_page preserves the invariant. -/
theorem bpmInv_unpin (hash : Int → Nat) (s : BufferPoolManager) (page_id : Int)
    (is_dirty : Bool) (res : Bool) (s' : BufferPoolManager) (ev : List DiskEvent)
    (hinv : BPMInv s) (h : s.UnpinPgImp hash page_id is_dirty = some (res, s', ev)) :
    BPMInv s' := by
  rw [BufferPoolManager.UnpinPgImp] at h
  rcases hf : ExtendibleHashTable.Find hash s.page_table page_id with _ | fid
  · rw [hf] at h
    have h' : (some (false, s, []) :
        Option (Bool × BufferPoolManager × List DiskEvent)) = some (res, s', ev) := h
    simp only [Option.some_inj, Prod.mk.injEq] at h'
    obtain ⟨-, h2, -⟩ := h'
    rw [← h2]
    exact hinv
  · simp only [hf] at h
    split_ifs at h with h0 h1
    · simp only [Option.some_inj, Prod.mk.injEq] at h
      obtain ⟨-, h2, -⟩ := h
      rw [← h2]
      exact hinv
    · -- the pin count reaches zero: the frame becomes evictable
      have hfl : fid < s.pages.length := by
        by_contra hge
        rw [List.getD_eq_default _ _ (by omega)] at h0
        exact h0 rfl
      split at h
      · exact Option.noConfusion h
      · rename_i o1 rep' hse
        simp only [Option.some_inj, Prod.mk.injEq] at h
        obtain ⟨-, h2, -⟩ := h
        obtain ⟨hfidlt, hrs, hcase⟩ := setEvictable_shape _ _ _ _ hse
        refine ⟨?_, ?_, ?_, ?_⟩
        · rw [← h2]
          show (s.pages.set fid _).length = s.pool_size
          rw [List.length_set, hinv.pages_len]
        · rw [← h2]
          show rep'.replacer_size = s.pool_size
          rw [hrs, hinv.rep_size]
        · rw [← h2]
          show (frameKeys rep'.frame_map).Nodup
          rcases hcase with ⟨fi', hfi', hne, hmap2⟩ | ⟨hmap2, hall⟩
          · rw [hmap2]
            exact nodup_updateFrame _ _ _ hinv.keys_nodup
          · rw [hmap2]
            exact hinv.keys_nodup
        · intro x fi hx
          rw [← h2] at hx ⊢
          by_cases hxf : x = fid
          · subst hxf
            have hev : fi.evictable = true := by
              rcases hcase with ⟨fi', hfi', hne, hmap2⟩ | ⟨hmap2, hall⟩
              · show fi.evictable = true
                have hx2 : lookupFrame rep'.frame_map x = some fi := hx
                rw [hmap2, lookupFrame_updateFrame_self] at hx2
                injection hx2 with h3
                rw [← h3]
              · have hx2 : lookupFrame s.replacer.frame_map x = some fi := by
                  have hx3 : lookupFrame rep'.frame_map x = some fi := hx
                  rw [hmap2] at hx3
                  exact hx3
                exact hall fi hx2
            show ((s.pages.set x _).getD x defaultPage).pin_count = 0 ↔ fi.evictable = true
            rw [getD_set_self _ _ _ _ hfl, hev]
            simp only [iff_true]
            exact h1
          · have hx' : lookupFrame s.replacer.frame_map x = some fi := by
              rcases hcase with ⟨fi', hfi', hne, hmap2⟩ | ⟨hmap2, hall⟩
              · have hx2 : lookupFrame rep'.frame_map x = some fi := hx
                rw [hmap2, lookupFrame_updateFrame_ne _ _ _ _ hxf] at hx2
                exact hx2
              · have hx2 : lookupFrame rep'.frame_map x = some fi := hx
                rw [hmap2] at hx2
                exact hx2
            show ((s.pages.set fid _).getD x defaultPage).pin_count = 0 ↔ fi.evictable = true
            rw [getD_set_of_ne _ _ _ _ _ (fun hc => hxf hc.symm)]
            exact hinv.pin_evict x fi hx'
    · -- the pin count stays positive: the replacer is untouched
      have hfl : fid < s.pages.length := by
        by_contra hge
        rw [List.getD_eq_default _ _ (by omega)] at h0
        exact h0 rfl
      simp only [Option.some_inj, Prod.mk.injEq] at h
      obtain ⟨-, h2, -⟩ := h
      refine ⟨?_, ?_, ?_, ?_⟩
      · rw [← h2]
        show (s.pages.set fid _).length = s.pool_size
        rw [List.length_set, hinv.pages_len]
      · rw [← h2]
        exact hinv.rep_size
      · rw [← h2]
        exact hinv.keys_nodup
      · intro x fi hx
        rw [← h2] at hx ⊢
        have hx' : lookupFrame s.replacer.frame_map x = some fi := hx
        by_cases hxf : x = fid
        · subst hxf
          have hold := hinv.pin_evict x fi hx'
          have hne0 : ¬ fi.evictable = true := by
            intro he
            rw [he] at hold
            exact h0 (hold.2 rfl)
          show ((s.pages.set x _).getD x defaultPage).pin_count = 0 ↔ fi.evictable = true
          rw [getD_set_self _ _ _ _ hfl]
          constructor
          · intro hc
            exact absurd hc h1
          · intro hc
            exact absurd hc hne0
        · show ((s.pages.set fid _).getD x defaultPage).pin_count = 0 ↔ fi.evictable = true
          rw [getD_set_of_ne _ _ _ _ _ (fun hc => hxf hc.symm)]
          exact hinv.pin_evict x fi hx'

/-- flush_page preserves the invariant. -/
theorem bpmInv_flushPg (hash : Int → Nat) (s : BufferPoolManager) (page_id : Int)
    (res : Bool) (s' : BufferPoolManager) (ev : List DiskEvent)
    (hinv : BPMInv s) (h : s.FlushPgImp hash page_id = some (res, s', ev)) :
    BPMInv s' := by
  rw [BufferPoolManager.FlushPgImp] at h
  split_ifs at h with hiv
  · simp only [Option.some_inj, Prod.mk.injEq] at h
    obtain ⟨-, h2, -⟩ := h
    rw [← h2]
    exact hinv
  · rcases hf : ExtendibleHashTable.Find hash s.page_table page_id with _ | fid
    · rw [hf] at h
      have h' : (some (false, s, []) :
          Option (Bool × BufferPoolManager × List DiskEvent)) = some (res, s', ev) := h
      simp only [Option.some_inj, Prod.mk.injEq] at h'
      obtain ⟨-, h2, -⟩ := h'
      rw [← h2]
      exact hinv
    · simp only [hf] at h
      simp only [Option.some_inj, Prod.mk.injEq] at h
      obtain ⟨-, h2, -⟩ := h
      refine ⟨?_, ?_, ?_, ?_⟩
      · rw [← h2]
        show (s.pages.set fid _).length = s.pool_size
        rw [List.length_set, hinv.pages_len]
      · rw [← h2]
        exact hinv.rep_size
      · rw [← h2]
        exact hinv.keys_nodup
      · intro x fi hx
        rw [← h2] at hx ⊢
        have hx' : lookupFrame s.replacer.frame_map x = some fi := hx
        have hpe := hinv.pin_evict x fi hx'
        by_cases hxf : x = fid
        · subst hxf
          by_cases hfl : x < s.pages.length
          · show ((s.pages.set x _).getD x defaultPage).pin_count = 0 ↔ fi.evictable = true
            rw [getD_set_self _ _ _ _ hfl]
            exact hpe
          · show ((s.pages.set x _).getD x defaultPage).pin_count = 0 ↔ fi.evictable = true
            rw [List.getD_eq_default _ _ (by simp; omega)]
            rw [List.getD_eq_default _ _ (by omega)] at hpe
            exact hpe
        · show ((s.pages.set fid _).getD x defaultPage).pin_count = 0 ↔ fi.evictable = true
          rw [getD_set_of_ne _ _ _ _ _ (fun hc => hxf hc.symm)]
          exact hpe

/-- flush_all_pages preserves the invariant. -/
theorem bpmInv_flushAll (s : BufferPoolManager) (hinv : BPMInv s) :
    BPMInv s.FlushAllPgsImp.1 := by
  obtain ⟨h1, h2, h3, h4, h5, h6⟩ := flushAll_foldl_spec s s.pool_size
  have hfold : s.FlushAllPgsImp =
      (List.range s.pool_size).foldl flushAllStep (s, []) := rfl
  refine ⟨?_, ?_, ?_, ?_⟩
  · rw [hfold, h1, h4, hinv.pages_len]
  · rw [hfold, h2, h1]
    exact hinv.rep_size
  · rw [hfold, h2]
    exact hinv.keys_nodup
  · intro x fi hx
    rw [hfold] at hx ⊢
    rw [h2] at hx
    have hpe := hinv.pin_evict x fi hx
    rw [h5 x]
    by_cases hc : x < s.pool_size ∧ (s.pages.getD x defaultPage).page_id ≠ INVALID_PAGE_ID ∧
        (s.pages.getD x defaultPage).is_dirty = true
    · rw [if_pos hc]
      exact hpe
    · rw [if_neg hc]
      exact hpe

/-- delete_page preserves the invariant. -/
theorem bpmInv_delete (hash : Int → Nat) (s : BufferPoolManager) (page_id : Int)
    (res : Bool) (s' : BufferPoolManager) (ev : List DiskEvent)
    (hinv : BPMInv s) (h : s.DeletePgImp hash page_id = some (res, s', ev)) :
    BPMInv s' := by
  rw [BufferPoolManager.DeletePgImp] at h
  rcases hf : ExtendibleHashTable.Find hash s.page_table page_id with _ | fid
  · rw [hf] at h
    have h' : (some (true, s, [DiskEvent.deallocPage page_id]) :
        Option (Bool × BufferPoolManager × List DiskEvent)) = some (res, s', ev) := h
    simp only [Option.some_inj, Prod.mk.injEq] at h'
    obtain ⟨-, h2, -⟩ := h'
    rw [← h2]
    exact hinv
  · simp only [hf] at h
    split_ifs at h with hpin hd
    · simp only [Option.some_inj, Prod.mk.injEq] at h
      obtain ⟨-, h2, -⟩ := h
      rw [← h2]
      exact hinv
    · -- pin count zero, dirty page
      split at h
      · exact Option.noConfusion h
      · rename_i o1 rep' hrem
        simp only [Option.some_inj, Prod.mk.injEq] at h
        obtain ⟨-, h2, -⟩ := h
        obtain ⟨hfidlt, hrs, hcase⟩ := replacerRemove_shape _ _ _ hrem
        refine ⟨?_, ?_, ?_, ?_⟩
        · rw [← h2]
          show (s.pages.set fid defaultPage).length = s.pool_size
          rw [List.length_set, hinv.pages_len]
        · rw [← h2]
          show rep'.replacer_size = s.pool_size
          rw [hrs, hinv.rep_size]
        · rw [← h2]
          show (frameKeys rep'.frame_map).Nodup
          rcases hcase with hm | hm
          · rw [hm]
            exact hinv.keys_nodup
          · rw [hm]
            exact nodup_eraseFrame _ _ hinv.keys_nodup
        · intro x fi hx
          rw [← h2] at hx ⊢
          have hx0 : lookupFrame rep'.frame_map x = some fi := hx
          by_cases hxf : x = fid
          · subst hxf
            rcases hcase with hm | hm
            · rw [hm] at hx0
              have hlook := hinv.pin_evict x fi hx0
              show ((s.pages.set x defaultPage).getD x defaultPage).pin_count = 0 ↔
                fi.evictable = true
              by_cases hfl : x < s.pages.length
              · rw [getD_set_self _ _ _ _ hfl]
                simp only [defaultPage]
                have : fi.evictable = true := by
                  rw [← hlook]
                  omega
                simp [this]
              · rw [List.getD_eq_default _ _ (by simp; omega)]
                rw [List.getD_eq_default _ _ (by omega)] at hlook
                exact hlook
            · rw [hm, lookupFrame_eraseFrame_self _ _ hinv.keys_nodup] at hx0
              exact Option.noConfusion hx0
          · have hx' : lookupFrame s.replacer.frame_map x = some fi := by
              rcases hcase with hm | hm
              · rw [hm] at hx0
                exact hx0
              · rw [hm, lookupFrame_eraseFrame_ne _ _ _ hxf] at hx0
                exact hx0
            show ((s.pages.set fid defaultPage).getD x defaultPage).pin_count = 0 ↔
              fi.evictable = true
            rw [getD_set_of_ne _ _ _ _ _ (fun hc => hxf hc.symm)]
            exact hinv.pin_evict x fi hx'
    · -- pin count zero, clean page
      split at h
      · exact Option.noConfusion h
      · rename_i o1 rep' hrem
        simp only [Option.some_inj, Prod.mk.injEq] at h
        obtain ⟨-, h2, -⟩ := h
        obtain ⟨hfidlt, hrs, hcase⟩ := replacerRemove_shape _ _ _ hrem
        refine ⟨?_, ?_, ?_, ?_⟩
        · rw [← h2]
          show (s.pages.set fid defaultPage).length = s.pool_size
          rw [List.length_set, hinv.pages_len]
        · rw [← h2]
          show rep'.replacer_size = s.pool_size
          rw [hrs, hinv.rep_size]
        · rw [← h2]
          show (frameKeys rep'.frame_map).Nodup
          rcases hcase with hm | hm
          · rw [hm]
            exact hinv.keys_nodup
          · rw [hm]
            exact nodup_eraseFrame _ _ hinv.keys_nodup
        · intro x fi hx
          rw [← h2] at hx ⊢
          have hx0 : lookupFrame rep'.frame_map x = some fi := hx
          by_cases hxf : x = fid
          · subst hxf
            rcases hcase with hm | hm
            · rw [hm] at hx0
              have hlook := hinv.pin_evict x fi hx0
              show ((s.pages.set x defaultPage).getD x defaultPage).pin_count = 0 ↔
                fi.evictable = true
              by_cases hfl : x < s.pages.length
              · rw [getD_set_self _ _ _ _ hfl]
                simp only [defaultPage]
                have : fi.evictable = true := by
                  rw [← hlook]
                  omega
                simp [this]
              · rw [List.getD_eq_default _ _ (by simp; omega)]
                rw [List.getD_eq_default _ _ (by omega)] at hlook
                exact hlook
            · rw [hm, lookupFrame_eraseFrame_self _ _ hinv.keys_nodup] at hx0
              exact Option.noConfusion hx0
          · have hx' : lookupFrame s.replacer.frame_map x = some fi := by
              rcases hcase with hm | hm
              · rw [hm] at hx0
                exact hx0
              · rw [hm, lookupFrame_eraseFrame_ne _ _ _ hxf] at hx0
                exact hx0
            show ((s.pages.set fid defaultPage).getD x defaultPage).pin_count = 0 ↔
              fi.evictable = true
            rw [getD_set_of_ne _ _ _ _ _ (fun hc => hxf hc.symm)]
            exact hinv.pin_evict x fi hx'

/-- Each public buffer-pool operation preserves the invariant. -/
theorem bpmInv_applyBPMOp (hash : Int → Nat) (s : BufferPoolManager) (op : BPMOp)
    (s' : BufferPoolManager) (hinv : BPMInv s) (h : applyBPMOp hash s op = some s') :
    BPMInv s' := by
  cases op with
  | newPg fuel =>
    simp only [applyBPMOp, Option.map_eq_some'] at h
    obtain ⟨⟨res, s2, ev⟩, hX, hs⟩ := h
    cases hs
    exact bpmInv_newPg hash fuel s res s2 ev hinv hX
  | fetchPg page_id fuel =>
    simp only [applyBPMOp, Option.map_eq_some'] at h
    obtain ⟨⟨res, s2, ev⟩, hX, hs⟩ := h
    cases hs
    exact bpmInv_fetchPg hash fuel s page_id res s2 ev hinv hX
  | unpinPg page_id is_dirty =>
    simp only [applyBPMOp, Option.map_eq_some'] at h
    obtain ⟨⟨res, s2, ev⟩, hX, hs⟩ := h
    cases hs
    exact bpmInv_unpin hash s page_id is_dirty res s2 ev hinv hX
  | flushPg page_id =>
    simp only [applyBPMOp, Option.map_eq_some'] at h
    obtain ⟨⟨res, s2, ev⟩, hX, hs⟩ := h
    cases hs
    exact bpmInv_flushPg hash s page_id res s2 ev hinv hX
  | flushAll =>
    simp only [applyBPMOp, Option.some_inj] at h
    rw [← h]
    exact bpmInv_flushAll s hinv
  | deletePg page_id =>
    simp only [applyBPMOp, Option.map_eq_some'] at h
    obtain ⟨⟨res, s2, ev⟩, hX, hs⟩ := h
    cases hs
    exact bpmInv_delete hash s page_id res s2 ev hinv hX

/-- The invariant holds along every successful run of operations. -/
theorem bpmInv_runBPM (hash : Int → Nat) (ops : List BPMOp) :
    ∀ s s', BPMInv s → runBPM hash s ops = some s' → BPMInv s' := by
  induction ops with
  | nil =>
    intro s s' hinv h
    simp only [runBPM, Option.some_inj] at h
    rw [← h]
    exact hinv
  | cons op ops ih =>
    intro s s' hinv h
    rw [runBPM] at h
    rcases ha : applyBPMOp hash s op with _ | s1
    · rw [ha] at h
      exact Option.noConfusion h
    · rw [ha] at h
      exact ih s1 s' (bpmInv_applyBPMOp hash s op s1 hinv ha) h

/-- C8 (amended): in every state reachable from a freshly created buffer
pool by any sequence of public operations, a frame that the replacer
currently tracks (i.e. whose record_access record has not been erased by
delete_page or eviction) has pin count zero exactly when its replacer
record is marked evictable. The literal claim, quantifying over every
frame ever introduced via record_access, is refuted separately: after
delete_page the record is gone while the pin count reads zero. -/
theorem pin_evictable_inv (hash : Int → Nat) (pool_size replacer_k bucket_size : Nat)
    (ops : List BPMOp) (s : BufferPoolManager)
    (hrun : runBPM hash (BufferPoolManager.create pool_size replacer_k bucket_size) ops
      = some s) :
    ∀ fid fi, lookupFrame s.replacer.frame_map fid = some fi →
      (((s.pages.getD fid defaultPage).pin_count = 0) ↔ fi.evictable = true) :=
  (bpmInv_runBPM hash ops _ s
    (bpmInv_create pool_size replacer_k bucket_size) hrun).pin_evict

/-- The state reached by new_page then unpin on a one-frame pool. -/
def c8WitnessState : BufferPoolManager :=
  (runBPM (fun i => i.toNat) (BufferPoolManager.create 1 1 2)
    [BPMOp.newPg 2, BPMOp.unpinPg 0 false]).getD (BufferPoolManager.create 1 1 2)

/-- The replacer record of frame 0 in that state. -/
def c8WitnessFrame : FrameInfo :=
  (lookupFrame c8WitnessState.replacer.frame_map 0).getD FrameInfo.default0

/-- Concrete instantiation: after new_page and unpin on a one-frame pool,
frame 0 is tracked, its pin count is zero and its record is evictable. -/
theorem pin_evictable_inv_witness :
    ((c8WitnessState.pages.getD 0 defaultPage).pin_count = 0) ↔
      c8WitnessFrame.evictable = true :=
  pin_evictable_inv (fun i => i.toNat) 1 1 2
    [BPMOp.newPg 2, BPMOp.unpinPg 0 false] c8WitnessState (by decide) 0
    c8WitnessFrame (by decide)
